import Mathlib

/-!
Verification development for the follower-maze server.

The Go sources are shallowly embedded:
- Go `map` values become association lists (`mapLookup`, `mapInsert`, `mapErase`)
  with the usual last-write-wins replacement semantics.
- Go strings on the wire become `List Nat` byte sequences; `strconv.ParseUint`
  / `strconv.ParseInt` (base 10, bitSize 64) become `parseUint64` / `parseInt64`
  with explicit range checks, `strings.Split` becomes `splitB`, and
  `strings.TrimSpace` becomes `trimB`.
- The `Message` interface and its five concrete structs become a closed
  inductive type; `ParseMessage`, `NewMessage` and the `String()` encoders are
  translated clause by clause.
- The resequencer loop body of `NetServer.readSource` becomes the pure step
  function `seqStep` (with `drain` for the inner pump-from-cache loop), and the
  dispatch methods of the five message kinds become `dispatchMsg` over an
  explicit `ServerState`, returning the list of (client id, message) writes.
-/

namespace FollowerMaze

/-- Go map read `m[k]`: first matching key wins (keys are kept distinct by
`mapInsert`). -/
def mapLookup {κ α : Type} [DecidableEq κ] (k : κ) : List (κ × α) → Option α
  | [] => none
  | (k2, v) :: rest => if k2 = k then some v else mapLookup k rest

/-- Go map write `m[k] = v`: replaces the binding if the key is present,
otherwise appends it. -/
def mapInsert {κ α : Type} [DecidableEq κ] (k : κ) (v : α) : List (κ × α) → List (κ × α)
  | [] => [(k, v)]
  | (k2, v2) :: rest => if k2 = k then (k, v) :: rest else (k2, v2) :: mapInsert k v rest

/-- Go `delete(m, k)`: removes the binding for `k` if present. -/
def mapErase {κ α : Type} [DecidableEq κ] (k : κ) : List (κ × α) → List (κ × α)
  | [] => []
  | (k2, v2) :: rest => if k2 = k then rest else (k2, v2) :: mapErase k rest

/-- The key list of an embedded Go map. -/
def mapKeys {κ α : Type} (l : List (κ × α)) : List κ :=
  l.map Prod.fst

/-! ## Wire codec primitives (bytes)

`serverlib/server.go` and `serverlib/message.go` use `strconv` and `strings`
over Go strings; we model strings as byte lists. -/

/-- ASCII whitespace recognised by `strings.TrimSpace` (tab, LF, VT, FF, CR,
space). -/
def isSpc (b : Nat) : Bool :=
  b == 9 || b == 10 || b == 11 || b == 12 || b == 13 || b == 32

/-- Go `strings.TrimSpace`: drop whitespace from both ends. -/
def trimB (s : List Nat) : List Nat :=
  ((s.dropWhile isSpc).reverse.dropWhile isSpc).reverse

/-- Go `strings.Split(s, sep)` for a single-byte separator: always returns at
least one (possibly empty) field. -/
def splitB (sep : Nat) : List Nat → List (List Nat)
  | [] => [[]]
  | b :: rest =>
    match splitB sep rest with
    | [] => [[]]
    | field :: fields =>
      if b = sep then [] :: field :: fields else (b :: field) :: fields

/-- ASCII decimal digit test. -/
def isDigitB (b : Nat) : Bool :=
  48 ≤ b && b ≤ 57

/-- Accumulating decimal scan: fails on the first non-digit byte. -/
def parseDigitsAux : List Nat → Nat → Option Nat
  | [], acc => some acc
  | b :: rest, acc =>
    if isDigitB b then parseDigitsAux rest (acc * 10 + (b - 48)) else none

/-- Decimal scan of a non-empty all-digit byte sequence. -/
def parseDigits : List Nat → Option Nat
  | [] => none
  | b :: rest => parseDigitsAux (b :: rest) 0

/-- Go `strconv.ParseUint(s, 10, 64)`: digits only (no sign), value must fit
in 64 bits.  Models `ParseSeqId` in `serverlib/server.go`. -/
def parseUint64 (s : List Nat) : Option Nat :=
  (parseDigits s).bind (fun n => if n < 2 ^ 64 then some n else none)

/-- Go `strconv.ParseInt(s, 10, 64)`: optional sign, int64 range check.
Models `ParseUserId` in `serverlib/server.go` (byte 45 is the minus sign,
43 the plus sign). -/
def parseInt64 (s : List Nat) : Option Int :=
  match s with
  | [] => none
  | b :: rest =>
    if b = 45 then
      (parseDigits rest).bind (fun n => if n ≤ 2 ^ 63 then some (-(n : Int)) else none)
    else if b = 43 then
      (parseDigits rest).bind (fun n => if n < 2 ^ 63 then some (n : Int) else none)
    else
      (parseDigits (b :: rest)).bind (fun n => if n < 2 ^ 63 then some (n : Int) else none)

/-- Decimal digit byte for a digit value. -/
def digitB (d : Nat) : Nat :=
  48 + d

/-- Fuelled decimal rendering; the fuel only bounds the recursion depth and
is irrelevant once it is at least the value being rendered
(`natToDigitsF_irrel`). -/
def natToDigitsF : Nat → Nat → List Nat
  | 0, n => [digitB n]
  | fuel + 1, n =>
    if n < 10 then [digitB n] else natToDigitsF fuel (n / 10) ++ [digitB (n % 10)]

/-- Decimal rendering of a natural number, as produced by Go `fmt` verb `%d`
on an unsigned integer. -/
def natToDigits (n : Nat) : List Nat :=
  natToDigitsF n n

theorem natToDigitsF_irrel : ∀ f1 f2 n : Nat, n ≤ f1 → n ≤ f2 →
    natToDigitsF f1 n = natToDigitsF f2 n := by
  intro f1
  induction f1 with
  | zero =>
    intro f2 n h1 _
    interval_cases n
    cases f2 <;> simp [natToDigitsF]
  | succ f1 ih =>
    intro f2 n h1 h2
    by_cases hn : n < 10
    · cases f2 <;> simp [natToDigitsF, hn]
    · have h10 : 10 ≤ n := by omega
      obtain ⟨f2p, rfl⟩ : ∃ k, f2 = k + 1 := ⟨f2 - 1, by omega⟩
      have hd : n / 10 < n := Nat.div_lt_self (by omega) (by omega)
      simp only [natToDigitsF, hn, if_false]
      rw [ih f2p (n / 10) (by omega) (by omega)]

/-- The recurrence satisfied by `natToDigits`. -/
theorem natToDigits_eq (n : Nat) :
    natToDigits n = if n < 10 then [digitB n] else natToDigits (n / 10) ++ [digitB (n % 10)] := by
  by_cases hn : n < 10
  · cases n <;> simp [natToDigits, natToDigitsF, hn] at hn ⊢
  · have h10 : 10 ≤ n := by omega
    obtain ⟨k, rfl⟩ : ∃ k, n = k + 1 := ⟨n - 1, by omega⟩
    have hd : (k + 1) / 10 < k + 1 := Nat.div_lt_self (by omega) (by omega)
    simp only [natToDigits, natToDigitsF, hn, if_false]
    rw [natToDigitsF_irrel k ((k + 1) / 10) ((k + 1) / 10) (by omega) (by omega)]

/-- Decimal rendering of an integer, as produced by Go `fmt` verb `%d` on a
signed integer. -/
def intToDigits (i : Int) : List Nat :=
  if i < 0 then 45 :: natToDigits (-i).toNat else natToDigits i.toNat

/-! ## Message model (`serverlib/message.go`)

The `Message` interface with its five concrete structs (`Follow`, `Unfollow`,
`Broadcast`, `StatusUpdate`, `PrivateMessage`) becomes a closed inductive
type.  `SeqId` (Go `uint64`) is a `Nat`, `UserId` (Go `int64`) an `Int`;
well-formedness (`Message.WellFormed`) records the machine-width bounds. -/

inductive Message : Type
  | follow (seq : Nat) (idFrom idTo : Int)
  | unfollow (seq : Nat) (idFrom idTo : Int)
  | broadcast (seq : Nat)
  | statusUpdate (seq : Nat) (idFrom : Int)
  | privateMessage (seq : Nat) (idFrom idTo : Int)
deriving DecidableEq, Repr

/-- The `Id()` method common to all message structs. -/
def Message.Id : Message → Nat
  | .follow s _ _ => s
  | .unfollow s _ _ => s
  | .broadcast s => s
  | .statusUpdate s _ => s
  | .privateMessage s _ _ => s

/-- `NewFollow`: requires exactly 2 user-id arguments. -/
def NewFollow (s : Nat) (args : List Int) : Option Message :=
  match args with
  | [a, b] => some (.follow s a b)
  | _ => none

/-- `NewUnfollow`: requires exactly 2 user-id arguments. -/
def NewUnfollow (s : Nat) (args : List Int) : Option Message :=
  match args with
  | [a, b] => some (.unfollow s a b)
  | _ => none

/-- `NewBroadcast`: requires exactly 0 user-id arguments. -/
def NewBroadcast (s : Nat) (args : List Int) : Option Message :=
  match args with
  | [] => some (.broadcast s)
  | _ => none

/-- `NewStatusUpdate`: requires exactly 1 user-id argument. -/
def NewStatusUpdate (s : Nat) (args : List Int) : Option Message :=
  match args with
  | [a] => some (.statusUpdate s a)
  | _ => none

/-- `NewPrivateMessage`: requires exactly 2 user-id arguments. -/
def NewPrivateMessage (s : Nat) (args : List Int) : Option Message :=
  match args with
  | [a, b] => some (.privateMessage s a b)
  | _ => none

/-- `NewMessage`: dispatch on the one-byte kind tag via `msgTypeMap`
(F=70, U=85, B=66, S=83, P=80); unknown tags fail. -/
def NewMessage (seq : Nat) (msgType : List Nat) (args : List Int) : Option Message :=
  if msgType = [70] then NewFollow seq args
  else if msgType = [85] then NewUnfollow seq args
  else if msgType = [66] then NewBroadcast seq args
  else if msgType = [83] then NewStatusUpdate seq args
  else if msgType = [80] then NewPrivateMessage seq args
  else none

/-- The per-argument parse loop inside `ParseMessage`: fails on the first
argument that is not a valid integer. -/
def parseArgsList : List (List Nat) → Option (List Int)
  | [] => some []
  | a :: rest =>
    match parseInt64 a with
    | none => none
    | some v =>
      match parseArgsList rest with
      | none => none
      | some vs => some (v :: vs)

/-- `ParseMessage` (`serverlib/message.go`): trim, split on the `|` byte
(124), require at least 2 fields, parse the sequence id and the user-id
arguments, then build the message via `NewMessage`.  A `none` result models
the Go `(nil, error)` return: no partly populated message exists. -/
def ParseMessage (s : List Nat) : Option Message :=
  let fields := splitB 124 (trimB s)
  if fields.length < 2 then none
  else
    match fields with
    | p0 :: p1 :: rest =>
      match parseUint64 p0 with
      | none => none
      | some seq =>
        match parseArgsList rest with
        | none => none
        | some args => NewMessage seq p1 args
    | _ => none

/-- The fixed arity table of the spec (section 4.1): 0 for Broadcast, 1 for
StatusUpdate, 2 for Follow/Unfollow/PrivateMessage; `none` for an
unrecognised kind tag.  This definition follows the spec's words and is
compared against `ParseMessage` for the refinement claim about decode
errors. -/
def msgArity (tag : List Nat) : Option Nat :=
  if tag = [70] then some 2
  else if tag = [85] then some 2
  else if tag = [66] then some 0
  else if tag = [83] then some 1
  else if tag = [80] then some 2
  else none

/-- The decode-failure condition as the spec words it (section 4.1): fewer
than 2 fields, the seq field not a valid non-negative 64-bit integer, an
argument not a valid integer user id, an unrecognised kind tag, or an
argument count that does not match the kind's fixed arity.  This definition
follows the spec's words and is compared against `ParseMessage`. -/
def MalformedCond (s : List Nat) : Prop :=
  let fields := splitB 124 (trimB s)
  fields.length < 2 ∨
  parseUint64 (fields.getD 0 []) = none ∨
  (∃ a ∈ fields.drop 2, parseInt64 a = none) ∨
  msgArity (fields.getD 1 []) = none ∨
  (∃ n, msgArity (fields.getD 1 []) = some n ∧ fields.length - 2 ≠ n)

/-- The `String()` encoders of the five message structs: `fmt.Sprintf`
patterns such as `%d|F|%d|%d\r\n` rendered as byte lists (124 = `|`,
13 10 = CRLF, tag bytes as in `NewMessage`). -/
def Message.encode : Message → List Nat
  | .follow s f t =>
      natToDigits s ++ [124, 70, 124] ++ intToDigits f ++ [124] ++ intToDigits t ++ [13, 10]
  | .unfollow s f t =>
      natToDigits s ++ [124, 85, 124] ++ intToDigits f ++ [124] ++ intToDigits t ++ [13, 10]
  | .broadcast s =>
      natToDigits s ++ [124, 66] ++ [13, 10]
  | .statusUpdate s f =>
      natToDigits s ++ [124, 83, 124] ++ intToDigits f ++ [13, 10]
  | .privateMessage s f t =>
      natToDigits s ++ [124, 80, 124] ++ intToDigits f ++ [124] ++ intToDigits t ++ [13, 10]

/-- A message whose fields fit the Go machine types: `Seq` is a `uint64`,
user ids are `int64`. -/
def Message.WellFormed : Message → Prop
  | .follow s f t => s < 2 ^ 64 ∧ (-(2 ^ 63) ≤ f ∧ f < 2 ^ 63) ∧ (-(2 ^ 63) ≤ t ∧ t < 2 ^ 63)
  | .unfollow s f t => s < 2 ^ 64 ∧ (-(2 ^ 63) ≤ f ∧ f < 2 ^ 63) ∧ (-(2 ^ 63) ≤ t ∧ t < 2 ^ 63)
  | .broadcast s => s < 2 ^ 64
  | .statusUpdate s f => s < 2 ^ 64 ∧ (-(2 ^ 63) ≤ f ∧ f < 2 ^ 63)
  | .privateMessage s f t => s < 2 ^ 64 ∧ (-(2 ^ 63) ≤ f ∧ f < 2 ^ 63) ∧ (-(2 ^ 63) ≤ t ∧ t < 2 ^ 63)

/-! ## Resequencer (`NetServer.readSource`, part_002 lines 625-663)

The loop keeps `current` (the next expected sequence id, starting at 1) and
`cache` (the out-of-order holding buffer).  A record whose id differs from
`current` is cached; a record whose id equals `current` is dispatched,
`current` advances, and the now-contiguous cached records are pumped out. -/

structure SeqState : Type where
  current : Nat
  cache : List (Nat × Message)
deriving DecidableEq, Repr

theorem mapErase_length_lt {κ α : Type} [DecidableEq κ] {k : κ} {v : α}
    {l : List (κ × α)} (h : mapLookup k l = some v) :
    (mapErase k l).length < l.length := by
  induction l with
  | nil => simp [mapLookup] at h
  | cons p rest ih =>
    obtain ⟨k2, v2⟩ := p
    by_cases hk : k2 = k
    · simp [mapErase, hk]
    · simp only [mapLookup, hk, if_false] at h
      simp only [mapErase, hk, if_false, List.length_cons]
      exact Nat.succ_lt_succ (ih h)

/-- Fuelled version of the inner pump loop of `readSource`; the fuel only
bounds the recursion depth (`drainF_irrel`). -/
def drainF : Nat → SeqState → SeqState × List Message
  | 0, st => (st, [])
  | fuel + 1, st =>
    match mapLookup st.current st.cache with
    | none => (st, [])
    | some m =>
      let pr := drainF fuel ⟨st.current + 1, mapErase st.current st.cache⟩
      (pr.1, m :: pr.2)

/-- The inner pump loop of `readSource`: while the cache holds an entry for
`current`, dispatch it, delete it, and advance `current`.  Returns the final
state and the dispatched records in order. -/
def drain (st : SeqState) : SeqState × List Message :=
  drainF (st.cache.length + 1) st

theorem drainF_irrel : ∀ f1 f2 : Nat, ∀ st : SeqState,
    st.cache.length < f1 → st.cache.length < f2 → drainF f1 st = drainF f2 st := by
  intro f1
  induction f1 with
  | zero => intro f2 st h1 _; omega
  | succ f1 ih =>
    intro f2 st h1 h2
    obtain ⟨f2p, rfl⟩ : ∃ k, f2 = k + 1 := ⟨f2 - 1, by omega⟩
    simp only [drainF]
    cases hlook : mapLookup st.current st.cache with
    | none => rfl
    | some m =>
      have hlt := mapErase_length_lt hlook
      rw [ih f2p ⟨st.current + 1, mapErase st.current st.cache⟩ (by simpa using by omega)
        (by simpa using by omega)]

/-- The recurrence satisfied by `drain`. -/
theorem drain_eq (st : SeqState) :
    drain st =
      match mapLookup st.current st.cache with
      | none => (st, [])
      | some m =>
        ((drain ⟨st.current + 1, mapErase st.current st.cache⟩).1,
          m :: (drain ⟨st.current + 1, mapErase st.current st.cache⟩).2) := by
  show drainF (st.cache.length + 1) st = _
  simp only [drainF]
  cases hlook : mapLookup st.current st.cache with
  | none => rfl
  | some m =>
    have hlt := mapErase_length_lt hlook
    rw [drainF_irrel st.cache.length ((mapErase st.current st.cache).length + 1)
      ⟨st.current + 1, mapErase st.current st.cache⟩ (by simpa using by omega) (by simp)]
    rfl

/-- One iteration of the `readSource` loop for a received record `m`: cache it
if its id is not `current`, otherwise dispatch it and pump the cache. -/
def seqStep (st : SeqState) (m : Message) : SeqState × List Message :=
  if m.Id ≠ st.current then
    ({ st with cache := mapInsert m.Id m st.cache }, [])
  else
    let pr := drain ⟨st.current + 1, st.cache⟩
    (pr.1, m :: pr.2)

/-- Feeding a list of records one at a time from a given state, collecting
every dispatched record in dispatch order. -/
def runFeedFrom (st : SeqState) : List Message → SeqState × List Message
  | [] => (st, [])
  | m :: rest =>
    let pr := seqStep st m
    let pr2 := runFeedFrom pr.1 rest
    (pr2.1, pr.2 ++ pr2.2)

/-- The initial resequencer state of `readSource`: `current = 1`, empty
cache. -/
def initSeqState : SeqState :=
  ⟨1, []⟩

/-- A complete feed starting from the initial `readSource` state. -/
def runFeed (ms : List Message) : SeqState × List Message :=
  runFeedFrom initSeqState ms

/-! ## Server state and dispatch (part_002 `net` package + message.go)

`clients` is the registry map (client sinks are abstracted to tokens),
`followers` the follower graph (`map[UserId]map[UserId]bool`, inner sets as
lists).  Dispatch returns the updated state and the (client id, message)
writes performed. -/

structure ServerState : Type where
  clients : List (Int × Nat)
  followers : List (Int × List Int)
deriving DecidableEq, Repr

/-- Inner-set insertion `fset[uid] = true`. -/
def setInsert (uid : Int) (s : List Int) : List Int :=
  if uid ∈ s then s else s ++ [uid]

/-- Inner-set removal `delete(set, uid)`. -/
def setErase (uid : Int) : List Int → List Int
  | [] => []
  | x :: rest => if x = uid then rest else x :: setErase uid rest

/-- `NetServer.AddFollower(cid, uid)`: fetch or create the follower set of
`cid`, then mark `uid` present. -/
def AddFollower (st : ServerState) (cid uid : Int) : ServerState :=
  let fset := match mapLookup cid st.followers with
    | some s => s
    | none => []
  { st with followers := mapInsert cid (setInsert uid fset) st.followers }

/-- `NetServer.RemoveFollower(cid, uid)`: no-op when `cid` has no set;
otherwise delete `uid`, pruning the key when the set becomes empty. -/
def RemoveFollower (st : ServerState) (cid uid : Int) : ServerState :=
  match mapLookup cid st.followers with
  | none => st
  | some s =>
    let s2 := setErase uid s
    if s2.length = 0 then { st with followers := mapErase cid st.followers }
    else { st with followers := mapInsert cid s2 st.followers }

/-- `NetServer.GetFollowers(uid)`: the raw map read; `none` models the Go
`nil` map returned for an unknown followee. -/
def GetFollowers (st : ServerState) (uid : Int) : Option (List Int) :=
  mapLookup uid st.followers

/-- The follower set as observed by iteration: a `nil` map iterates as the
empty set. -/
def followersOf (st : ServerState) (uid : Int) : List Int :=
  match GetFollowers st uid with
  | none => []
  | some s => s

/-- `NetServer.GetClient(uid)`: registry lookup, `none` for an unregistered
id. -/
def GetClient (st : ServerState) (uid : Int) : Option Nat :=
  mapLookup uid st.clients

/-- `NetServer.RegisterClient` (part_002 lines 433-445): reject when the id is
already present, otherwise store the sink. -/
def RegisterClient (st : ServerState) (cid : Int) (c : Nat) : Bool × ServerState :=
  if (mapLookup cid st.clients).isSome then (false, st)
  else (true, { st with clients := mapInsert cid c st.clients })

/-- The five `Dispatch` methods of `serverlib/message.go`, returning the
updated server state and the writes performed:
Follow adds the edge then writes to the followee if registered; Unfollow
removes the edge; Broadcast writes to every registered client; StatusUpdate
writes to every currently registered follower of the source (nothing when the
follower map read is `nil`); PrivateMessage writes to the target if
registered. -/
def dispatchMsg (st : ServerState) (m : Message) : ServerState × List (Int × Message) :=
  match m with
  | .follow _ f t =>
    let st2 := AddFollower st t f
    match GetClient st2 t with
    | some _ => (st2, [(t, m)])
    | none => (st2, [])
  | .unfollow _ f t => (RemoveFollower st t f, [])
  | .broadcast _ => (st, st.clients.map (fun p => (p.1, m)))
  | .statusUpdate _ f =>
    match GetFollowers st f with
    | none => (st, [])
    | some fs => (st, (fs.filter (fun uid => (GetClient st uid).isSome)).map (fun uid => (uid, m)))
  | .privateMessage _ _ t =>
    match GetClient st t with
    | some _ => (st, [(t, m)])
    | none => (st, [])

/-! ## Library lemmas about the embedded Go maps and sets -/

section MapLemmas

variable {κ α : Type} [DecidableEq κ]

theorem mapLookup_mapInsert_self (k : κ) (v : α) (l : List (κ × α)) :
    mapLookup k (mapInsert k v l) = some v := by
  induction l with
  | nil => simp [mapInsert, mapLookup]
  | cons p rest ih =>
    obtain ⟨k2, v2⟩ := p
    by_cases hk : k2 = k
    · simp [mapInsert, mapLookup, hk]
    · simp [mapInsert, mapLookup, hk, ih]

theorem mapLookup_mapInsert_ne {k k2 : κ} (hne : k2 ≠ k) (v : α) (l : List (κ × α)) :
    mapLookup k2 (mapInsert k v l) = mapLookup k2 l := by
  have hne2 : ¬ k = k2 := fun h => hne h.symm
  induction l with
  | nil => simp [mapInsert, mapLookup, hne2]
  | cons p rest ih =>
    obtain ⟨k3, v3⟩ := p
    by_cases hk : k3 = k
    · subst hk
      have hne3 : ¬ k3 = k2 := fun h => hne h.symm
      simp [mapInsert, mapLookup, hne2, hne3]
    · by_cases hk2 : k3 = k2 <;> simp [mapInsert, mapLookup, hk, hk2, hne, ih]

theorem mapLookup_mapErase_ne {k k2 : κ} (hne : k2 ≠ k) (l : List (κ × α)) :
    mapLookup k2 (mapErase k l) = mapLookup k2 l := by
  induction l with
  | nil => simp [mapErase, mapLookup]
  | cons p rest ih =>
    obtain ⟨k3, v3⟩ := p
    by_cases hk : k3 = k
    · subst hk
      have hne3 : ¬ k3 = k2 := fun h => hne h.symm
      simp [mapErase, mapLookup, hne3]
    · by_cases hk2 : k3 = k2 <;> simp [mapErase, mapLookup, hk, hk2, hne, ih]

theorem mapLookup_eq_none_iff (k : κ) (l : List (κ × α)) :
    mapLookup k l = none ↔ k ∉ mapKeys l := by
  induction l with
  | nil => simp [mapLookup, mapKeys]
  | cons p rest ih =>
    obtain ⟨k2, v2⟩ := p
    by_cases hk : k2 = k
    · simp [mapLookup, mapKeys, hk]
    · have hk2 : ¬ k = k2 := fun h => hk h.symm
      simp only [mapLookup, hk, if_false]
      rw [ih]
      simp [mapKeys, hk2]

theorem mapLookup_isSome_iff (k : κ) (l : List (κ × α)) :
    (mapLookup k l).isSome = true ↔ k ∈ mapKeys l := by
  rw [← Decidable.not_iff_not, ← mapLookup_eq_none_iff]
  cases mapLookup k l <;> simp

theorem mapLookup_some_mem {k : κ} {v : α} {l : List (κ × α)}
    (h : mapLookup k l = some v) : (k, v) ∈ l := by
  induction l with
  | nil => simp [mapLookup] at h
  | cons p rest ih =>
    obtain ⟨k2, v2⟩ := p
    by_cases hk : k2 = k
    · subst hk
      simp [mapLookup] at h
      simp [h]
    · simp only [mapLookup, hk, if_false] at h
      exact List.mem_cons_of_mem _ (ih h)

theorem mapErase_sublist (k : κ) (l : List (κ × α)) :
    (mapErase k l).Sublist l := by
  induction l with
  | nil => simp [mapErase]
  | cons p rest ih =>
    obtain ⟨k2, v2⟩ := p
    by_cases hk : k2 = k
    · simp only [mapErase, hk, if_true]
      exact List.sublist_cons_self _ _
    · simp only [mapErase, hk, if_false]
      exact ih.cons₂ _

theorem mem_mapErase_of_mem {k : κ} {p : κ × α} {l : List (κ × α)}
    (h : p ∈ mapErase k l) : p ∈ l :=
  (mapErase_sublist k l).mem h

theorem mem_mapInsert {k : κ} {v : α} {p : κ × α} {l : List (κ × α)}
    (h : p ∈ mapInsert k v l) : p = (k, v) ∨ p ∈ l := by
  induction l with
  | nil => simp [mapInsert] at h; simp [h]
  | cons q rest ih =>
    obtain ⟨k2, v2⟩ := q
    by_cases hk : k2 = k
    · simp only [mapInsert, hk, if_true, List.mem_cons] at h
      rcases h with h | h
      · exact Or.inl h
      · exact Or.inr (List.mem_cons_of_mem _ h)
    · simp only [mapInsert, hk, if_false, List.mem_cons] at h
      rcases h with h | h
      · exact Or.inr (by simp [h])
      · rcases ih h with h2 | h2
        · exact Or.inl h2
        · exact Or.inr (List.mem_cons_of_mem _ h2)

theorem mem_mapKeys_mapInsert (k k2 : κ) (v : α) (l : List (κ × α)) :
    k2 ∈ mapKeys (mapInsert k v l) ↔ k2 = k ∨ k2 ∈ mapKeys l := by
  induction l with
  | nil => simp [mapInsert, mapKeys]
  | cons p rest ih =>
    obtain ⟨k3, v3⟩ := p
    by_cases hk : k3 = k
    · subst hk
      simp only [mapInsert, if_true, mapKeys, List.map_cons, List.mem_cons] at ih ⊢
      tauto
    · simp only [mapInsert, hk, if_false, mapKeys, List.map_cons, List.mem_cons] at ih ⊢
      tauto

theorem nodup_mapKeys_mapInsert (k : κ) (v : α) {l : List (κ × α)}
    (h : (mapKeys l).Nodup) : (mapKeys (mapInsert k v l)).Nodup := by
  induction l with
  | nil => simp [mapInsert, mapKeys]
  | cons p rest ih =>
    obtain ⟨k2, v2⟩ := p
    simp only [mapKeys, List.map_cons, List.nodup_cons] at h
    by_cases hk : k2 = k
    · subst hk
      simpa [mapInsert, mapKeys] using h
    · simp only [mapInsert, hk, if_false, mapKeys, List.map_cons, List.nodup_cons]
      refine ⟨fun hmem => ?_, ih h.2⟩
      rw [show (mapInsert k v rest).map Prod.fst = mapKeys (mapInsert k v rest) from rfl,
        mem_mapKeys_mapInsert] at hmem
      rcases hmem with h2 | h2
      · exact hk h2
      · exact h.1 h2

theorem nodup_mapKeys_mapErase (k : κ) {l : List (κ × α)}
    (h : (mapKeys l).Nodup) : (mapKeys (mapErase k l)).Nodup :=
  ((mapErase_sublist k l).map Prod.fst).nodup h

theorem mem_mapKeys_mapErase {k k2 : κ} {l : List (κ × α)} (h : (mapKeys l).Nodup) :
    k2 ∈ mapKeys (mapErase k l) ↔ k2 ∈ mapKeys l ∧ k2 ≠ k := by
  induction l with
  | nil => simp [mapErase, mapKeys]
  | cons p rest ih =>
    obtain ⟨k3, v3⟩ := p
    have hmk : mapKeys ((k3, v3) :: rest) = k3 :: mapKeys rest := rfl
    rw [hmk, List.nodup_cons] at h
    by_cases hk : k3 = k
    · subst hk
      rw [show mapErase k3 ((k3, v3) :: rest) = rest from by simp [mapErase]]
      rw [hmk, List.mem_cons]
      constructor
      · intro hmem
        exact ⟨Or.inr hmem, fun he => h.1 (he ▸ hmem)⟩
      · rintro ⟨hmem | hmem, hne⟩
        · exact absurd hmem hne
        · exact hmem
    · rw [show mapErase k ((k3, v3) :: rest) = (k3, v3) :: mapErase k rest from by
        simp [mapErase, hk]]
      rw [show mapKeys ((k3, v3) :: mapErase k rest) = k3 :: mapKeys (mapErase k rest) from rfl]
      rw [hmk, List.mem_cons, List.mem_cons, ih h.2]
      constructor
      · rintro (h2 | ⟨h2, h3⟩)
        · exact ⟨Or.inl h2, fun he => hk (h2.symm.trans he)⟩
        · exact ⟨Or.inr h2, h3⟩
      · rintro ⟨h2 | h2, h3⟩
        · exact Or.inl h2
        · exact Or.inr ⟨h2, h3⟩

theorem mapInsert_mapInsert (k : κ) (v w : α) (l : List (κ × α)) :
    mapInsert k v (mapInsert k w l) = mapInsert k v l := by
  induction l with
  | nil => simp [mapInsert]
  | cons p rest ih =>
    obtain ⟨k2, v2⟩ := p
    by_cases hk : k2 = k
    · simp [mapInsert, hk]
    · simp [mapInsert, hk, ih]

theorem mapInsert_lookup_self {k : κ} {v : α} {l : List (κ × α)}
    (h : mapLookup k l = some v) : mapInsert k v l = l := by
  induction l with
  | nil => simp [mapLookup] at h
  | cons p rest ih =>
    obtain ⟨k2, v2⟩ := p
    by_cases hk : k2 = k
    · subst hk
      have h2 : v2 = v := by simpa [mapLookup] using h
      subst h2
      simp [mapInsert]
    · simp only [mapLookup, hk, if_false] at h
      simp [mapInsert, hk, ih h]

end MapLemmas

theorem mem_mapKeys_of_lookup {κ α : Type} [DecidableEq κ] {k : κ} {v : α}
    {l : List (κ × α)} (h : mapLookup k l = some v) : k ∈ mapKeys l :=
  List.mem_map.mpr ⟨(k, v), mapLookup_some_mem h, rfl⟩

/-! ## Behaviour of the resequencer pump loop -/

theorem drain_spec (st : SeqState)
    (hvals : ∀ p ∈ st.cache, Message.Id p.2 = p.1)
    (hnd : (mapKeys st.cache).Nodup) :
    (drain st).1.current = st.current + (drain st).2.length ∧
    (drain st).2.map Message.Id = List.range' st.current (drain st).2.length ∧
    (∀ p ∈ (drain st).1.cache, Message.Id p.2 = p.1) ∧
    (mapKeys (drain st).1.cache).Nodup ∧
    (∀ k, k ∈ mapKeys (drain st).1.cache ↔
      (k ∈ mapKeys st.cache ∧ ¬(st.current ≤ k ∧ k < (drain st).1.current))) ∧
    mapLookup (drain st).1.current (drain st).1.cache = none ∧
    (∀ k, st.current ≤ k → k < (drain st).1.current → k ∈ mapKeys st.cache) := by
  cases hlook : mapLookup st.current st.cache with
  | none =>
    have heq : drain st = (st, []) := by rw [drain_eq, hlook]
    rw [heq]
    refine ⟨by simp, by simp, hvals, hnd, fun k => ?_, hlook, fun k h1 h2 => ?_⟩
    · dsimp only
      exact ⟨fun h => ⟨h, by omega⟩, fun h => h.1⟩
    · dsimp only at h2
      omega
  | some m =>
    have hvals2 : ∀ p ∈ mapErase st.current st.cache, Message.Id p.2 = p.1 :=
      fun p hp => hvals p (mem_mapErase_of_mem hp)
    have hnd2 : (mapKeys (mapErase st.current st.cache)).Nodup :=
      nodup_mapKeys_mapErase _ hnd
    have IH := drain_spec ⟨st.current + 1, mapErase st.current st.cache⟩ hvals2 hnd2
    obtain ⟨ih1, ih2, ih3, ih4, ih5, ih6, ih7⟩ := IH
    have heq : drain st = ((drain ⟨st.current + 1, mapErase st.current st.cache⟩).1,
        m :: (drain ⟨st.current + 1, mapErase st.current st.cache⟩).2) := by
      rw [drain_eq, hlook]
    rw [heq]
    dsimp only at ih1 ih5 ih6 ih7 ⊢
    have hmId : Message.Id m = st.current := hvals _ (mapLookup_some_mem hlook)
    refine ⟨?_, ?_, ih3, ih4, ?_, ih6, ?_⟩
    · simp only [List.length_cons]
      omega
    · simp only [List.map_cons, List.length_cons, hmId, ih2]
      rw [List.range'_succ]
    · intro k
      rw [ih5 k, mem_mapKeys_mapErase hnd]
      constructor
      · rintro ⟨⟨hmem, hne⟩, hrange⟩
        refine ⟨hmem, ?_⟩
        have hne2 : k ≠ st.current := hne
        omega
      · rintro ⟨hmem, hrange⟩
        by_cases hk : k = st.current
        · subst hk
          omega
        · exact ⟨⟨hmem, hk⟩, by omega⟩
    · intro k h1 h2
      by_cases hk : k = st.current
      · subst hk
        exact mem_mapKeys_of_lookup hlook
      · have := ih7 k (by omega) h2
        exact ((mapErase_sublist st.current st.cache).map Prod.fst).mem this
termination_by st.cache.length
decreasing_by
  exact mapErase_length_lt hlook

/-- The invariant maintained by the `readSource` loop while it processes a
stream of distinct positive sequence ids: `fed` holds the ids received so
far, the dispatched output is exactly `1 .. current - 1`, and the cache holds
exactly the received ids above the cursor, each keyed by its own id. -/
structure SeqInv (fed : Nat → Prop) (st : SeqState) (out : List Message) : Prop where
  one_le : 1 ≤ st.current
  out_ids : out.map Message.Id = List.range' 1 (st.current - 1)
  vals : ∀ p ∈ st.cache, Message.Id p.2 = p.1
  nodup : (mapKeys st.cache).Nodup
  keys_iff : ∀ k, k ∈ mapKeys st.cache ↔ (fed k ∧ st.current < k)
  cur_not_fed : ¬ fed st.current
  below_fed : ∀ k, 1 ≤ k → k < st.current → fed k

theorem SeqInv_congr {fed1 fed2 : Nat → Prop} {st : SeqState} {out : List Message}
    (h : ∀ k, fed1 k ↔ fed2 k) (inv : SeqInv fed1 st out) : SeqInv fed2 st out := by
  refine ⟨inv.one_le, inv.out_ids, inv.vals, inv.nodup, ?_, ?_, ?_⟩
  · intro k
    rw [inv.keys_iff k, h k]
  · exact fun hf => inv.cur_not_fed ((h _).mpr hf)
  · exact fun k a b => (h k).mp (inv.below_fed k a b)

theorem seqStep_inv {fed : Nat → Prop} {st : SeqState} {out : List Message} (m : Message)
    (inv : SeqInv fed st out) (hnew : ¬ fed (Message.Id m)) (hpos : 1 ≤ Message.Id m) :
    SeqInv (fun k => k = Message.Id m ∨ fed k) (seqStep st m).1 (out ++ (seqStep st m).2) := by
  have hge : st.current ≤ Message.Id m := by
    by_contra hlt
    exact hnew (inv.below_fed _ hpos (by omega))
  by_cases hcase : Message.Id m = st.current
  · have heq : seqStep st m = ((drain ⟨st.current + 1, st.cache⟩).1,
        m :: (drain ⟨st.current + 1, st.cache⟩).2) := by
      simp [seqStep, hcase]
    obtain ⟨h1, h2, h3, h4, h5, h6, h7⟩ :=
      drain_spec ⟨st.current + 1, st.cache⟩ inv.vals inv.nodup
    rw [heq]
    dsimp only at h1 h2 h5 h6 h7 ⊢
    have hnotin : (drain ⟨st.current + 1, st.cache⟩).1.current ∉
        mapKeys (drain ⟨st.current + 1, st.cache⟩).1.cache :=
      (mapLookup_eq_none_iff _ _).mp h6
    refine ⟨by omega, ?_, h3, h4, ?_, ?_, ?_⟩
    · rw [List.map_append, inv.out_ids, List.map_cons, hcase, h2, ← List.range'_succ]
      have hc1 : 1 + (st.current - 1) = st.current := by
        have := inv.one_le
        omega
      have hap := List.range'_append_1 1 (st.current - 1)
        ((drain ⟨st.current + 1, st.cache⟩).2.length + 1)
      rw [hc1] at hap
      rw [hap]
      congr 1
      omega
    · intro k
      rw [h5 k]
      constructor
      · rintro ⟨hmem, hrange⟩
        have hk := (inv.keys_iff k).mp hmem
        have hkne : k ≠ (drain ⟨st.current + 1, st.cache⟩).1.current :=
          fun he => hnotin (he ▸ (h5 k).mpr ⟨hmem, hrange⟩)
        exact ⟨Or.inr hk.1, by omega⟩
      · rintro ⟨hor, hgt⟩
        have hkgt : st.current < k := by omega
        rcases hor with he | hf
        · omega
        · exact ⟨(inv.keys_iff k).mpr ⟨hf, hkgt⟩, by omega⟩
    · rintro (he | hf)
      · omega
      · have hgt : st.current <
            (drain ⟨st.current + 1, st.cache⟩).1.current := by omega
        have hmem := (inv.keys_iff _).mpr ⟨hf, hgt⟩
        exact hnotin ((h5 _).mpr ⟨hmem, by omega⟩)
    · intro k hk1 hk2
      by_cases hlt : k < st.current
      · exact Or.inr (inv.below_fed k hk1 hlt)
      · by_cases hke : k = st.current
        · exact Or.inl (hke.trans hcase.symm)
        · have hmem := h7 k (by omega) hk2
          exact Or.inr ((inv.keys_iff k).mp hmem).1
  · have hmgt : st.current < Message.Id m := by omega
    have heq : seqStep st m = ({ st with cache := mapInsert (Message.Id m) m st.cache }, []) := by
      simp [seqStep, hcase]
    rw [heq]
    refine ⟨inv.one_le, by simpa using inv.out_ids, ?_, nodup_mapKeys_mapInsert _ _ inv.nodup,
      ?_, ?_, ?_⟩
    · intro p hp
      dsimp only at hp
      rcases mem_mapInsert hp with he | hmem
      · rw [he]
      · exact inv.vals p hmem
    · intro k
      dsimp only
      rw [mem_mapKeys_mapInsert]
      constructor
      · rintro (he | hmem)
        · exact ⟨Or.inl he, by omega⟩
        · have hk := (inv.keys_iff k).mp hmem
          exact ⟨Or.inr hk.1, hk.2⟩
      · rintro ⟨he | hf, hgt⟩
        · exact Or.inl he
        · exact Or.inr ((inv.keys_iff k).mpr ⟨hf, hgt⟩)
    · dsimp only
      rintro (he | hf)
      · omega
      · exact inv.cur_not_fed hf
    · dsimp only
      exact fun k a b => Or.inr (inv.below_fed k a b)

theorem runFeedFrom_inv {fed : Nat → Prop} {st : SeqState} {out : List Message}
    (ms : List Message) (inv : SeqInv fed st out)
    (hdisj : ∀ m ∈ ms, ¬ fed (Message.Id m) ∧ 1 ≤ Message.Id m)
    (hnd : (ms.map Message.Id).Nodup) :
    SeqInv (fun k => k ∈ ms.map Message.Id ∨ fed k)
      (runFeedFrom st ms).1 (out ++ (runFeedFrom st ms).2) := by
  induction ms generalizing fed st out with
  | nil =>
    have h2 : out ++ (runFeedFrom st []).2 = out := by simp [runFeedFrom]
    have h1 : (runFeedFrom st []).1 = st := rfl
    rw [h1, h2]
    exact SeqInv_congr (fun k => by simp) inv
  | cons m rest ih =>
    have hm := hdisj m (List.mem_cons_self m rest)
    have hstep := seqStep_inv m inv hm.1 hm.2
    simp only [List.map_cons, List.nodup_cons] at hnd
    have hdisj2 : ∀ m2 ∈ rest,
        ¬ (Message.Id m2 = Message.Id m ∨ fed (Message.Id m2)) ∧ 1 ≤ Message.Id m2 := by
      intro m2 hm2
      refine ⟨?_, (hdisj m2 (List.mem_cons_of_mem _ hm2)).2⟩
      rintro (he | hf)
      · exact hnd.1 (he ▸ List.mem_map_of_mem Message.Id hm2)
      · exact (hdisj m2 (List.mem_cons_of_mem _ hm2)).1 hf
    have hrest := ih hstep hdisj2 hnd.2
    have hrun1 : (runFeedFrom st (m :: rest)).1 = (runFeedFrom (seqStep st m).1 rest).1 := rfl
    have hrun2 : (runFeedFrom st (m :: rest)).2 =
        (seqStep st m).2 ++ (runFeedFrom (seqStep st m).1 rest).2 := rfl
    rw [hrun1, hrun2, ← List.append_assoc]
    refine SeqInv_congr (fun k => ?_) hrest
    simp only [List.map_cons, List.mem_cons]
    tauto

theorem mem_setInsert_self (x : Int) (s : List Int) : x ∈ setInsert x s := by
  unfold setInsert
  by_cases h : x ∈ s <;> simp [h]

theorem mem_setInsert (x y : Int) (s : List Int) :
    y ∈ setInsert x s ↔ y = x ∨ y ∈ s := by
  unfold setInsert
  by_cases h : x ∈ s
  · simp only [h, if_true]
    constructor
    · exact Or.inr
    · rintro (rfl | h2)
      · exact h
      · exact h2
  · simp only [h, if_false, List.mem_append, List.mem_singleton]
    tauto

theorem setInsert_idem (x : Int) (s : List Int) :
    setInsert x (setInsert x s) = setInsert x s := by
  unfold setInsert
  by_cases h : x ∈ s
  · simp [h]
  · simp [h]

theorem setInsert_nodup (x : Int) {s : List Int} (h : s.Nodup) :
    (setInsert x s).Nodup := by
  unfold setInsert
  by_cases hx : x ∈ s
  · simpa [hx] using h
  · simp only [hx, if_false]
    simpa [List.nodup_append, hx] using h

theorem setErase_of_not_mem {x : Int} {s : List Int} (h : x ∉ s) :
    setErase x s = s := by
  induction s with
  | nil => rfl
  | cons y rest ih =>
    simp only [List.mem_cons, not_or] at h
    have hy : ¬ y = x := fun he => h.1 he.symm
    simp [setErase, hy, ih h.2]

theorem not_mem_setErase_self {x : Int} {s : List Int} (h : s.Nodup) :
    x ∉ setErase x s := by
  induction s with
  | nil => simp [setErase]
  | cons y rest ih =>
    simp only [List.nodup_cons] at h
    by_cases hy : y = x
    · subst hy
      simpa [setErase] using h.1
    · simp only [setErase, hy, if_false, List.mem_cons, not_or]
      exact ⟨fun he => hy he.symm, ih h.2⟩

theorem drain_final_lookup (st : SeqState) :
    mapLookup (drain st).1.current (drain st).1.cache = none := by
  cases hlook : mapLookup st.current st.cache with
  | none =>
    have heq : drain st = (st, []) := by rw [drain_eq, hlook]
    rw [heq]
    exact hlook
  | some m =>
    have heq : drain st = ((drain ⟨st.current + 1, mapErase st.current st.cache⟩).1,
        m :: (drain ⟨st.current + 1, mapErase st.current st.cache⟩).2) := by
      rw [drain_eq, hlook]
    rw [heq]
    exact drain_final_lookup ⟨st.current + 1, mapErase st.current st.cache⟩
termination_by st.cache.length
decreasing_by
  exact mapErase_length_lt hlook

theorem seqStep_no_cur_key (st : SeqState) (m : Message)
    (h : mapLookup st.current st.cache = none) :
    mapLookup (seqStep st m).1.current (seqStep st m).1.cache = none := by
  by_cases hcase : Message.Id m = st.current
  · have heq : seqStep st m = ((drain ⟨st.current + 1, st.cache⟩).1,
        m :: (drain ⟨st.current + 1, st.cache⟩).2) := by
      simp [seqStep, hcase]
    rw [heq]
    exact drain_final_lookup ⟨st.current + 1, st.cache⟩
  · have heq : seqStep st m = ({ st with cache := mapInsert (Message.Id m) m st.cache }, []) := by
      simp [seqStep, hcase]
    rw [heq]
    dsimp only
    rw [mapLookup_mapInsert_ne (fun he => hcase he.symm)]
    exact h

theorem runFeedFrom_no_cur_key (ms : List Message) (st : SeqState)
    (h : mapLookup st.current st.cache = none) :
    mapLookup (runFeedFrom st ms).1.current (runFeedFrom st ms).1.cache = none := by
  induction ms generalizing st with
  | nil => exact h
  | cons m rest ih => exact ih _ (seqStep_no_cur_key st m h)

theorem seqStep_vals_nodup (st : SeqState) (m : Message)
    (hv : ∀ p ∈ st.cache, Message.Id p.2 = p.1) (hn : (mapKeys st.cache).Nodup) :
    (∀ p ∈ (seqStep st m).1.cache, Message.Id p.2 = p.1) ∧
      (mapKeys (seqStep st m).1.cache).Nodup := by
  by_cases hcase : Message.Id m = st.current
  · have heq : seqStep st m = ((drain ⟨st.current + 1, st.cache⟩).1,
        m :: (drain ⟨st.current + 1, st.cache⟩).2) := by
      simp [seqStep, hcase]
    obtain ⟨_, _, h3, h4, _, _, _⟩ := drain_spec ⟨st.current + 1, st.cache⟩ hv hn
    rw [heq]
    exact ⟨h3, h4⟩
  · have heq : seqStep st m = ({ st with cache := mapInsert (Message.Id m) m st.cache }, []) := by
      simp [seqStep, hcase]
    rw [heq]
    refine ⟨?_, nodup_mapKeys_mapInsert _ _ hn⟩
    intro p hp
    rcases mem_mapInsert hp with he | ho
    · rw [he]
    · exact hv p ho

theorem runFeed_vals_nodup (ms : List Message) :
    (∀ p ∈ (runFeed ms).1.cache, Message.Id p.2 = p.1) ∧
      (mapKeys (runFeed ms).1.cache).Nodup := by
  suffices hgen : ∀ st : SeqState, (∀ p ∈ st.cache, Message.Id p.2 = p.1) →
      (mapKeys st.cache).Nodup →
      (∀ p ∈ (runFeedFrom st ms).1.cache, Message.Id p.2 = p.1) ∧
        (mapKeys (runFeedFrom st ms).1.cache).Nodup by
    exact hgen initSeqState (by simp [initSeqState]) (by simp [initSeqState, mapKeys])
  induction ms with
  | nil => exact fun st hv hn => ⟨hv, hn⟩
  | cons m rest ih =>
    intro st hv hn
    have hstep := seqStep_vals_nodup st m hv hn
    exact ih _ hstep.1 hstep.2

theorem drain_out_ge (st : SeqState)
    (hv : ∀ p ∈ st.cache, Message.Id p.2 = p.1) :
    (∀ p ∈ (drain st).1.cache, Message.Id p.2 = p.1) ∧
    st.current ≤ (drain st).1.current ∧
    (∀ i ∈ (drain st).2.map Message.Id, st.current ≤ i) := by
  cases hlook : mapLookup st.current st.cache with
  | none =>
    have heq : drain st = (st, []) := by rw [drain_eq, hlook]
    rw [heq]
    exact ⟨hv, Nat.le_refl _, by simp⟩
  | some m =>
    have heq : drain st = ((drain ⟨st.current + 1, mapErase st.current st.cache⟩).1,
        m :: (drain ⟨st.current + 1, mapErase st.current st.cache⟩).2) := by
      rw [drain_eq, hlook]
    have hv2 : ∀ p ∈ mapErase st.current st.cache, Message.Id p.2 = p.1 :=
      fun p hp => hv p (mem_mapErase_of_mem hp)
    obtain ⟨ih1, ih2, ih3⟩ := drain_out_ge ⟨st.current + 1, mapErase st.current st.cache⟩ hv2
    dsimp only at ih2 ih3
    rw [heq]
    dsimp only
    refine ⟨ih1, by omega, ?_⟩
    intro i hi
    simp only [List.map_cons, List.mem_cons] at hi
    rcases hi with hi | hi
    · rw [hi, hv _ (mapLookup_some_mem hlook)]
    · have := ih3 i hi
      omega
termination_by st.cache.length
decreasing_by
  exact mapErase_length_lt hlook

theorem seqStep_out_ge (st : SeqState) (m : Message)
    (hv : ∀ p ∈ st.cache, Message.Id p.2 = p.1) :
    (∀ p ∈ (seqStep st m).1.cache, Message.Id p.2 = p.1) ∧
    st.current ≤ (seqStep st m).1.current ∧
    (∀ i ∈ (seqStep st m).2.map Message.Id, st.current ≤ i) := by
  by_cases hcase : Message.Id m = st.current
  · have heq : seqStep st m = ((drain ⟨st.current + 1, st.cache⟩).1,
        m :: (drain ⟨st.current + 1, st.cache⟩).2) := by
      simp [seqStep, hcase]
    obtain ⟨ih1, ih2, ih3⟩ := drain_out_ge ⟨st.current + 1, st.cache⟩ hv
    dsimp only at ih2 ih3
    rw [heq]
    dsimp only
    refine ⟨ih1, by omega, ?_⟩
    intro i hi
    simp only [List.map_cons, List.mem_cons] at hi
    rcases hi with hi | hi
    · omega
    · have := ih3 i hi
      omega
  · have heq : seqStep st m = ({ st with cache := mapInsert (Message.Id m) m st.cache }, []) := by
      simp [seqStep, hcase]
    rw [heq]
    refine ⟨?_, Nat.le_refl _, by simp⟩
    intro p hp
    rcases mem_mapInsert hp with he | ho
    · rw [he]
    · exact hv p ho

theorem runFeedFrom_out_ge (ms : List Message) :
    ∀ st : SeqState, (∀ p ∈ st.cache, Message.Id p.2 = p.1) →
    (∀ p ∈ (runFeedFrom st ms).1.cache, Message.Id p.2 = p.1) ∧
    st.current ≤ (runFeedFrom st ms).1.current ∧
    (∀ i ∈ (runFeedFrom st ms).2.map Message.Id, st.current ≤ i) := by
  induction ms with
  | nil => exact fun st hv => ⟨hv, Nat.le_refl _, by simp [runFeedFrom]⟩
  | cons m rest ih =>
    intro st hv
    obtain ⟨s1, s2, s3⟩ := seqStep_out_ge st m hv
    obtain ⟨r1, r2, r3⟩ := ih (seqStep st m).1 s1
    have hrun1 : (runFeedFrom st (m :: rest)).1 = (runFeedFrom (seqStep st m).1 rest).1 := rfl
    have hrun2 : (runFeedFrom st (m :: rest)).2 =
        (seqStep st m).2 ++ (runFeedFrom (seqStep st m).1 rest).2 := rfl
    rw [hrun1, hrun2]
    refine ⟨r1, by omega, ?_⟩
    intro i hi
    simp only [List.map_append, List.mem_append] at hi
    rcases hi with hi | hi
    · exact s3 i hi
    · have := r3 i hi
      omega

/-! ## Server-state helper lemmas -/

theorem mapLookup_mapErase_self {κ α : Type} [DecidableEq κ] (k : κ) {l : List (κ × α)}
    (h : (mapKeys l).Nodup) : mapLookup k (mapErase k l) = none := by
  rw [mapLookup_eq_none_iff]
  intro hmem
  exact ((mem_mapKeys_mapErase h).mp hmem).2 rfl

theorem AddFollower_eq (st : ServerState) (cid uid : Int) :
    AddFollower st cid uid =
      { st with followers := mapInsert cid (setInsert uid (followersOf st cid)) st.followers } := by
  unfold AddFollower followersOf GetFollowers
  cases mapLookup cid st.followers <;> rfl

theorem AddFollower_clients (st : ServerState) (cid uid : Int) :
    (AddFollower st cid uid).clients = st.clients := by
  rw [AddFollower_eq]

theorem RemoveFollower_clients (st : ServerState) (cid uid : Int) :
    (RemoveFollower st cid uid).clients = st.clients := by
  unfold RemoveFollower
  cases mapLookup cid st.followers with
  | none => rfl
  | some s =>
    dsimp only
    split <;> rfl

theorem mem_followersOf_AddFollower (st : ServerState) (cid uid : Int) :
    uid ∈ followersOf (AddFollower st cid uid) cid := by
  rw [AddFollower_eq]
  unfold followersOf GetFollowers
  dsimp only
  rw [mapLookup_mapInsert_self]
  exact mem_setInsert_self _ _

theorem AddFollower_sets_nodup {st : ServerState} (cid uid : Int)
    (h : ∀ p ∈ st.followers, p.2.Nodup) :
    ∀ p ∈ (AddFollower st cid uid).followers, p.2.Nodup := by
  rw [AddFollower_eq]
  intro p hp
  rcases mem_mapInsert hp with he | ho
  · rw [he]
    apply setInsert_nodup
    unfold followersOf GetFollowers
    cases hl : mapLookup cid st.followers with
    | none => simp
    | some s => exact h _ (mapLookup_some_mem hl)
  · exact h p ho

theorem AddFollower_keys_nodup {st : ServerState} (cid uid : Int)
    (h : (mapKeys st.followers).Nodup) :
    (mapKeys (AddFollower st cid uid).followers).Nodup := by
  rw [AddFollower_eq]
  exact nodup_mapKeys_mapInsert _ _ h

theorem not_mem_followersOf_RemoveFollower (st : ServerState) (cid uid : Int)
    (hwf : ∀ p ∈ st.followers, p.2.Nodup) (hkeys : (mapKeys st.followers).Nodup) :
    uid ∉ followersOf (RemoveFollower st cid uid) cid := by
  unfold RemoveFollower
  cases hl : mapLookup cid st.followers with
  | none =>
    unfold followersOf GetFollowers
    rw [hl]
    simp
  | some s =>
    have hnd : s.Nodup := hwf (cid, s) (mapLookup_some_mem hl)
    dsimp only
    by_cases hlen : (setErase uid s).length = 0
    · rw [if_pos hlen]
      unfold followersOf GetFollowers
      dsimp only
      rw [mapLookup_mapErase_self cid hkeys]
      simp
    · rw [if_neg hlen]
      unfold followersOf GetFollowers
      dsimp only
      rw [mapLookup_mapInsert_self]
      exact not_mem_setErase_self hnd

theorem dispatch_follow_state (st : ServerState) (s : Nat) (f t : Int) :
    (dispatchMsg st (.follow s f t)).1 = AddFollower st t f := by
  unfold dispatchMsg
  dsimp only
  cases GetClient (AddFollower st t f) t <;> rfl

theorem mem_dispatch_statusUpdate (st : ServerState) (s : Nat) (f uid : Int) :
    (uid, Message.statusUpdate s f) ∈ (dispatchMsg st (.statusUpdate s f)).2 ↔
      uid ∈ followersOf st f ∧ (GetClient st uid).isSome := by
  unfold dispatchMsg followersOf
  dsimp only
  cases hl : GetFollowers st f with
  | none => simp
  | some fs =>
    dsimp only
    simp only [List.mem_map, List.mem_filter, Prod.mk.injEq]
    constructor
    · rintro ⟨u, ⟨hu, hreg⟩, he, _⟩
      exact ⟨he ▸ hu, he ▸ hreg⟩
    · rintro ⟨hu, hreg⟩
      exact ⟨uid, ⟨hu, hreg⟩, rfl, trivial⟩

/-! ## Codec lemmas: decimal digits -/

theorem isDigitB_digitB {n : Nat} (h : n < 10) : isDigitB (digitB n) = true := by
  unfold isDigitB digitB
  simp only [Bool.and_eq_true, decide_eq_true_eq]
  omega

theorem natToDigits_digits (n : Nat) : ∀ b ∈ natToDigits n, 48 ≤ b ∧ b ≤ 57 := by
  induction n using Nat.strong_induction_on with
  | _ n ih =>
    rw [natToDigits_eq]
    by_cases h : n < 10
    · rw [if_pos h]
      intro b hb
      simp only [List.mem_singleton] at hb
      subst hb
      unfold digitB
      omega
    · rw [if_neg h]
      intro b hb
      rcases List.mem_append.mp hb with hb | hb
      · exact ih (n / 10) (Nat.div_lt_self (by omega) (by omega)) b hb
      · simp only [List.mem_singleton] at hb
        subst hb
        unfold digitB
        have := Nat.mod_lt n (show 0 < 10 by omega)
        omega

theorem parseDigitsAux_append (a b : List Nat) (acc : Nat) :
    parseDigitsAux (a ++ b) acc =
      match parseDigitsAux a acc with
      | none => none
      | some acc2 => parseDigitsAux b acc2 := by
  induction a generalizing acc with
  | nil => rfl
  | cons x xs ih =>
    by_cases hx : isDigitB x
    · simp only [List.cons_append, parseDigitsAux, hx, if_true]
      exact ih _
    · simp only [List.cons_append, parseDigitsAux, hx, Bool.false_eq_true, if_false]

theorem parseDigitsAux_natToDigits (n : Nat) : ∀ acc : Nat,
    parseDigitsAux (natToDigits n) acc = some (acc * 10 ^ (natToDigits n).length + n) := by
  induction n using Nat.strong_induction_on with
  | _ n ih =>
    intro acc
    by_cases h : n < 10
    · rw [natToDigits_eq, if_pos h]
      simp only [parseDigitsAux, isDigitB_digitB h, if_true, List.length_singleton]
      unfold digitB
      congr 1
      omega
    · rw [natToDigits_eq, if_neg h]
      rw [parseDigitsAux_append]
      rw [ih (n / 10) (Nat.div_lt_self (by omega) (by omega)) acc]
      have hm : n % 10 < 10 := Nat.mod_lt _ (by omega)
      simp only [parseDigitsAux, isDigitB_digitB hm, if_true, List.length_append,
        List.length_singleton]
      congr 1
      unfold digitB
      have h48 : 48 + n % 10 - 48 = n % 10 := by omega
      rw [h48, pow_succ]
      have hdm := Nat.div_add_mod n 10
      calc (acc * 10 ^ (natToDigits (n / 10)).length + n / 10) * 10 + n % 10
          = acc * (10 ^ (natToDigits (n / 10)).length * 10) + (n / 10 * 10 + n % 10) := by ring
        _ = acc * (10 ^ (natToDigits (n / 10)).length * 10) + n := by omega

theorem natToDigits_ne_nil (n : Nat) : natToDigits n ≠ [] := by
  rw [natToDigits_eq]
  by_cases h : n < 10
  · simp [h]
  · simp [h]

theorem parseDigits_eq_aux {l : List Nat} (h : l ≠ []) :
    parseDigits l = parseDigitsAux l 0 := by
  cases l with
  | nil => exact absurd rfl h
  | cons b rest => rfl

theorem parseDigits_natToDigits (n : Nat) : parseDigits (natToDigits n) = some n := by
  rw [parseDigits_eq_aux (natToDigits_ne_nil n), parseDigitsAux_natToDigits]
  simp

theorem parseUint64_natToDigits {n : Nat} (h : n < 2 ^ 64) :
    parseUint64 (natToDigits n) = some n := by
  unfold parseUint64
  rw [parseDigits_natToDigits]
  simp only [Option.some_bind, if_pos h]

theorem intToDigits_bytes (i : Int) : ∀ b ∈ intToDigits i, b = 45 ∨ (48 ≤ b ∧ b ≤ 57) := by
  unfold intToDigits
  by_cases hneg : i < 0
  · rw [if_pos hneg]
    intro b hb
    rcases List.mem_cons.mp hb with hb | hb
    · exact Or.inl hb
    · exact Or.inr (natToDigits_digits _ b hb)
  · rw [if_neg hneg]
    intro b hb
    exact Or.inr (natToDigits_digits _ b hb)

theorem parseInt64_intToDigits {i : Int} (h1 : -(2 ^ 63) ≤ i) (h2 : i < 2 ^ 63) :
    parseInt64 (intToDigits i) = some i := by
  unfold intToDigits
  by_cases hneg : i < 0
  · rw [if_pos hneg]
    unfold parseInt64
    dsimp only
    rw [if_pos rfl, parseDigits_natToDigits]
    have hle : (-i).toNat ≤ 2 ^ 63 := by omega
    simp only [Option.some_bind, if_pos hle, Option.some.injEq]
    rw [Int.toNat_of_nonneg (by omega : (0 : Int) ≤ -i)]
    exact neg_neg i
  · rw [if_neg hneg]
    have h0 : (0 : Int) ≤ i := by omega
    rcases hl : natToDigits i.toNat with _ | ⟨b, rest⟩
    · exact absurd hl (natToDigits_ne_nil _)
    · have hb : 48 ≤ b ∧ b ≤ 57 :=
        natToDigits_digits _ b (by rw [hl]; exact List.mem_cons_self _ _)
      unfold parseInt64
      dsimp only
      rw [if_neg (by omega : ¬ b = 45), if_neg (by omega : ¬ b = 43), ← hl,
        parseDigits_natToDigits]
      have hlt : i.toNat < 2 ^ 63 := by omega
      simp only [Option.some_bind, if_pos hlt, Option.some.injEq]
      exact Int.toNat_of_nonneg h0

/-! ## Codec lemmas: split and trim -/

theorem splitB_ne_nil (sep : Nat) (l : List Nat) : splitB sep l ≠ [] := by
  cases l with
  | nil => simp [splitB]
  | cons b rest =>
    unfold splitB
    cases h : splitB sep rest with
    | nil => simp
    | cons f fs => by_cases hb : b = sep <;> simp [hb]

theorem splitB_no_sep (sep : Nat) (l : List Nat) (h : ∀ b ∈ l, b ≠ sep) :
    splitB sep l = [l] := by
  induction l with
  | nil => rfl
  | cons b rest ih =>
    have hb : b ≠ sep := h b (List.mem_cons_self _ _)
    unfold splitB
    rw [ih (fun x hx => h x (List.mem_cons_of_mem _ hx))]
    simp [hb]

theorem splitB_cons (sep b : Nat) (rest : List Nat) :
    splitB sep (b :: rest) =
      match splitB sep rest with
      | [] => [[]]
      | field :: fields =>
        if b = sep then [] :: field :: fields else (b :: field) :: fields := rfl

theorem splitB_append_sep (sep : Nat) (a b : List Nat) (h : ∀ x ∈ a, x ≠ sep) :
    splitB sep (a ++ sep :: b) = a :: splitB sep b := by
  induction a with
  | nil =>
    rw [List.nil_append, splitB_cons]
    cases hs : splitB sep b with
    | nil => exact absurd hs (splitB_ne_nil sep b)
    | cons f fs => simp
  | cons x xs ih =>
    have hx : x ≠ sep := h x (List.mem_cons_self _ _)
    rw [List.cons_append, splitB_cons, ih (fun y hy => h y (List.mem_cons_of_mem _ hy))]
    simp [hx]

theorem dropWhile_all_false {p : Nat → Bool} {l : List Nat}
    (h : ∀ b ∈ l, p b = false) : l.dropWhile p = l := by
  cases l with
  | nil => rfl
  | cons b rest =>
    rw [List.dropWhile_cons]
    simp [h b (List.mem_cons_self _ _)]

theorem trimB_body (body : List Nat) (hne : body ≠ [])
    (hns : ∀ b ∈ body, isSpc b = false) :
    trimB (body ++ [13, 10]) = body := by
  unfold trimB
  have h1 : (body ++ [13, 10]).dropWhile isSpc = body ++ [13, 10] := by
    cases body with
    | nil => exact absurd rfl hne
    | cons b rest =>
      rw [List.cons_append, List.dropWhile_cons]
      simp [hns b (List.mem_cons_self _ _)]
  rw [h1, List.reverse_append]
  have h2 : (([13, 10] : List Nat).reverse ++ body.reverse) = 10 :: 13 :: body.reverse := rfl
  rw [h2, List.dropWhile_cons]
  simp only [show isSpc 10 = true from by decide, if_true]
  rw [List.dropWhile_cons]
  simp only [show isSpc 13 = true from by decide, if_true]
  rw [dropWhile_all_false (fun b hb => hns b (List.mem_reverse.mp hb)), List.reverse_reverse]

theorem isSpc_false_of_ge {b : Nat} (h : 33 ≤ b) : isSpc b = false := by
  unfold isSpc
  simp only [Bool.or_eq_false_iff, beq_eq_false_iff_ne, ne_eq]
  omega

/-! ## Codec lemmas: the encoded line parses back -/

theorem parseArgsList_pair {F T : List Nat} {f t : Int}
    (h1 : parseInt64 F = some f) (h2 : parseInt64 T = some t) :
    parseArgsList [F, T] = some [f, t] := by
  simp [parseArgsList, h1, h2]

theorem parseArgsList_single {F : List Nat} {f : Int} (h : parseInt64 F = some f) :
    parseArgsList [F] = some [f] := by
  simp [parseArgsList, h]

theorem natToDigits_no_sep (s : Nat) : ∀ x ∈ natToDigits s, x ≠ 124 := by
  intro x hx
  have := natToDigits_digits s x hx
  omega

theorem intToDigits_no_sep (i : Int) : ∀ x ∈ intToDigits i, x ≠ 124 := by
  intro x hx
  rcases intToDigits_bytes i x hx with h | h <;> omega

theorem singleton_no_sep {tag : Nat} (h : tag ≠ 124) : ∀ y ∈ [tag], y ≠ 124 := by
  intro y hy
  simp only [List.mem_singleton] at hy
  exact hy ▸ h

theorem ParseMessage_two_arg (s : Nat) (f t : Int) (tag : Nat)
    (hs : s < 2 ^ 64) (hf1 : -(2 ^ 63) ≤ f) (hf2 : f < 2 ^ 63)
    (ht1 : -(2 ^ 63) ≤ t) (ht2 : t < 2 ^ 63) (htag1 : 33 ≤ tag) (htag2 : tag ≠ 124) :
    ParseMessage ((natToDigits s ++ [124, tag, 124] ++ intToDigits f ++ [124] ++ intToDigits t)
      ++ [13, 10]) = NewMessage s [tag] [f, t] := by
  have hbody_ne :
      natToDigits s ++ [124, tag, 124] ++ intToDigits f ++ [124] ++ intToDigits t ≠ [] := by
    cases hnl : natToDigits s with
    | nil => exact absurd hnl (natToDigits_ne_nil s)
    | cons a l => simp [hnl]
  have hns : ∀ b ∈ natToDigits s ++ [124, tag, 124] ++ intToDigits f ++ [124] ++ intToDigits t,
      isSpc b = false := by
    intro b hb
    apply isSpc_false_of_ge
    simp only [List.mem_append] at hb
    rcases hb with ((((hb | hb) | hb) | hb) | hb)
    · have := natToDigits_digits s b hb
      omega
    · simp only [List.mem_cons, List.mem_singleton, List.not_mem_nil, or_false] at hb
      rcases hb with hb | hb | hb <;> omega
    · rcases intToDigits_bytes f b hb with hb | hb <;> omega
    · simp only [List.mem_singleton] at hb
      omega
    · rcases intToDigits_bytes t b hb with hb | hb <;> omega
  have htrim := trimB_body _ hbody_ne hns
  have hsplit : splitB 124
      (natToDigits s ++ [124, tag, 124] ++ intToDigits f ++ [124] ++ intToDigits t) =
      [natToDigits s, [tag], intToDigits f, intToDigits t] := by
    have hassoc : natToDigits s ++ [124, tag, 124] ++ intToDigits f ++ [124] ++ intToDigits t =
        natToDigits s ++ 124 :: ([tag] ++ 124 :: (intToDigits f ++ 124 :: intToDigits t)) := by
      simp
    rw [hassoc, splitB_append_sep _ _ _ (natToDigits_no_sep s),
      splitB_append_sep _ _ _ (singleton_no_sep htag2),
      splitB_append_sep _ _ _ (intToDigits_no_sep f), splitB_no_sep _ _ (intToDigits_no_sep t)]
  unfold ParseMessage
  rw [htrim, hsplit]
  rw [if_neg (by simp)]
  dsimp only
  rw [parseUint64_natToDigits hs,
    parseArgsList_pair (parseInt64_intToDigits hf1 hf2) (parseInt64_intToDigits ht1 ht2)]

theorem ParseMessage_one_arg (s : Nat) (f : Int) (tag : Nat)
    (hs : s < 2 ^ 64) (hf1 : -(2 ^ 63) ≤ f) (hf2 : f < 2 ^ 63)
    (htag1 : 33 ≤ tag) (htag2 : tag ≠ 124) :
    ParseMessage ((natToDigits s ++ [124, tag, 124] ++ intToDigits f) ++ [13, 10]) =
      NewMessage s [tag] [f] := by
  have hbody_ne : natToDigits s ++ [124, tag, 124] ++ intToDigits f ≠ [] := by
    cases hnl : natToDigits s with
    | nil => exact absurd hnl (natToDigits_ne_nil s)
    | cons a l => simp [hnl]
  have hns : ∀ b ∈ natToDigits s ++ [124, tag, 124] ++ intToDigits f, isSpc b = false := by
    intro b hb
    apply isSpc_false_of_ge
    simp only [List.mem_append] at hb
    rcases hb with (hb | hb) | hb
    · have := natToDigits_digits s b hb
      omega
    · simp only [List.mem_cons, List.mem_singleton, List.not_mem_nil, or_false] at hb
      rcases hb with hb | hb | hb <;> omega
    · rcases intToDigits_bytes f b hb with hb | hb <;> omega
  have htrim := trimB_body _ hbody_ne hns
  have hsplit : splitB 124 (natToDigits s ++ [124, tag, 124] ++ intToDigits f) =
      [natToDigits s, [tag], intToDigits f] := by
    have hassoc : natToDigits s ++ [124, tag, 124] ++ intToDigits f =
        natToDigits s ++ 124 :: ([tag] ++ 124 :: intToDigits f) := by
      simp
    rw [hassoc, splitB_append_sep _ _ _ (natToDigits_no_sep s),
      splitB_append_sep _ _ _ (singleton_no_sep htag2),
      splitB_no_sep _ _ (intToDigits_no_sep f)]
  unfold ParseMessage
  rw [htrim, hsplit]
  rw [if_neg (by simp)]
  dsimp only
  rw [parseUint64_natToDigits hs, parseArgsList_single (parseInt64_intToDigits hf1 hf2)]

theorem ParseMessage_zero_arg (s : Nat) (tag : Nat)
    (hs : s < 2 ^ 64) (htag1 : 33 ≤ tag) (htag2 : tag ≠ 124) :
    ParseMessage ((natToDigits s ++ [124, tag]) ++ [13, 10]) = NewMessage s [tag] [] := by
  have hbody_ne : natToDigits s ++ [124, tag] ≠ [] := by
    cases hnl : natToDigits s with
    | nil => exact absurd hnl (natToDigits_ne_nil s)
    | cons a l => simp [hnl]
  have hns : ∀ b ∈ natToDigits s ++ [124, tag], isSpc b = false := by
    intro b hb
    apply isSpc_false_of_ge
    simp only [List.mem_append] at hb
    rcases hb with hb | hb
    · have := natToDigits_digits s b hb
      omega
    · simp only [List.mem_cons, List.mem_singleton, List.not_mem_nil, or_false] at hb
      rcases hb with hb | hb <;> omega
  have htrim := trimB_body _ hbody_ne hns
  have hsplit : splitB 124 (natToDigits s ++ [124, tag]) = [natToDigits s, [tag]] := by
    have hassoc : natToDigits s ++ [124, tag] = natToDigits s ++ 124 :: [tag] := by
      simp
    rw [hassoc, splitB_append_sep _ _ _ (natToDigits_no_sep s),
      splitB_no_sep _ _ (singleton_no_sep htag2)]
  unfold ParseMessage
  rw [htrim, hsplit]
  rw [if_neg (by simp)]
  dsimp only
  rw [parseUint64_natToDigits hs]
  rfl

/-! ## Codec lemmas: decode error conditions -/

theorem NewFollow_eq_none_iff (s : Nat) (args : List Int) :
    NewFollow s args = none ↔ args.length ≠ 2 := by
  rcases args with _ | ⟨a, _ | ⟨b, _ | ⟨c, rest⟩⟩⟩
  · simp [NewFollow]
  · simp [NewFollow]
  · simp [NewFollow]
  · simp only [NewFollow, List.length_cons, ne_eq]
    constructor
    · intro _
      omega
    · intro _
      trivial

theorem NewUnfollow_eq_none_iff (s : Nat) (args : List Int) :
    NewUnfollow s args = none ↔ args.length ≠ 2 := by
  rcases args with _ | ⟨a, _ | ⟨b, _ | ⟨c, rest⟩⟩⟩
  · simp [NewUnfollow]
  · simp [NewUnfollow]
  · simp [NewUnfollow]
  · simp only [NewUnfollow, List.length_cons, ne_eq]
    constructor
    · intro _
      omega
    · intro _
      trivial

theorem NewPrivateMessage_eq_none_iff (s : Nat) (args : List Int) :
    NewPrivateMessage s args = none ↔ args.length ≠ 2 := by
  rcases args with _ | ⟨a, _ | ⟨b, _ | ⟨c, rest⟩⟩⟩
  · simp [NewPrivateMessage]
  · simp [NewPrivateMessage]
  · simp [NewPrivateMessage]
  · simp only [NewPrivateMessage, List.length_cons, ne_eq]
    constructor
    · intro _
      omega
    · intro _
      trivial

theorem NewStatusUpdate_eq_none_iff (s : Nat) (args : List Int) :
    NewStatusUpdate s args = none ↔ args.length ≠ 1 := by
  rcases args with _ | ⟨a, _ | ⟨b, rest⟩⟩
  · simp [NewStatusUpdate]
  · simp [NewStatusUpdate]
  · simp only [NewStatusUpdate, List.length_cons, ne_eq]
    constructor
    · intro _
      omega
    · intro _
      trivial

theorem NewBroadcast_eq_none_iff (s : Nat) (args : List Int) :
    NewBroadcast s args = none ↔ args.length ≠ 0 := by
  rcases args with _ | ⟨a, rest⟩
  · simp [NewBroadcast]
  · simp only [NewBroadcast, List.length_cons, ne_eq]
    constructor
    · intro _
      omega
    · intro _
      trivial

theorem NewMessage_eq_none_iff (s : Nat) (tag : List Nat) (args : List Int) :
    NewMessage s tag args = none ↔
      (msgArity tag = none ∨ ∃ n, msgArity tag = some n ∧ args.length ≠ n) := by
  unfold NewMessage msgArity
  by_cases h70 : tag = [70]
  · simp [h70, NewFollow_eq_none_iff]
  · rw [if_neg h70, if_neg h70]
    by_cases h85 : tag = [85]
    · simp [h85, NewUnfollow_eq_none_iff]
    · rw [if_neg h85, if_neg h85]
      by_cases h66 : tag = [66]
      · simp [h66, NewBroadcast_eq_none_iff]
      · rw [if_neg h66, if_neg h66]
        by_cases h83 : tag = [83]
        · simp [h83, NewStatusUpdate_eq_none_iff]
        · rw [if_neg h83, if_neg h83]
          by_cases h80 : tag = [80]
          · simp [h80, NewPrivateMessage_eq_none_iff]
          · rw [if_neg h80, if_neg h80]
            simp

theorem parseArgsList_eq_none_iff (l : List (List Nat)) :
    parseArgsList l = none ↔ ∃ a ∈ l, parseInt64 a = none := by
  induction l with
  | nil => simp [parseArgsList]
  | cons a rest ih =>
    unfold parseArgsList
    cases ha : parseInt64 a with
    | none =>
      simp only [List.mem_cons]
      exact iff_of_true trivial ⟨a, Or.inl rfl, ha⟩
    | some v =>
      cases hr : parseArgsList rest with
      | none =>
        obtain ⟨x, hx, hfail⟩ := ih.mp hr
        simp only [List.mem_cons]
        exact iff_of_true trivial ⟨x, Or.inr hx, hfail⟩
      | some vs =>
        simp only [List.mem_cons]
        constructor
        · intro habs
          cases habs
        · rintro ⟨x, hx | hx, hfail⟩
          · rw [hx] at hfail
            rw [hfail] at ha
            cases ha
          · have := ih.mpr ⟨x, hx, hfail⟩
            rw [this] at hr
            cases hr

theorem parseArgsList_length {l : List (List Nat)} {vs : List Int}
    (h : parseArgsList l = some vs) : vs.length = l.length := by
  induction l generalizing vs with
  | nil =>
    simp only [parseArgsList, Option.some.injEq] at h
    subst h
    rfl
  | cons a rest ih =>
    unfold parseArgsList at h
    cases ha : parseInt64 a with
    | none =>
      rw [ha] at h
      cases h
    | some v =>
      rw [ha] at h
      cases hr : parseArgsList rest with
      | none =>
        rw [hr] at h
        cases h
      | some ws =>
        rw [hr] at h
        simp only [Option.some.injEq] at h
        subst h
        simp [ih hr]

/-! ## Claims -/

/-- C1: for every N and every permutation of N messages with unique sequence
numbers 1..N fed one at a time into the resequencer drain loop
(`readSource`), the sequence of dispatched messages is exactly 1,2,...,N:
every sequence number in 1..N is dispatched exactly once, in strictly
increasing order, regardless of arrival order. -/
theorem resequencer_dispatches_in_order (ms : List Message) (N : Nat)
    (hperm : (ms.map Message.Id).Perm (List.range' 1 N)) :
    (runFeed ms).2.map Message.Id = List.range' 1 N := by
  have inv0 : SeqInv (fun _ => False) initSeqState [] := by
    refine ⟨by simp [initSeqState], by simp [initSeqState], by simp [initSeqState],
      by simp [initSeqState, mapKeys], ?_, ?_, ?_⟩
    · intro k
      simp [initSeqState, mapKeys]
    · simp
    · intro k hk1 hk2
      simp only [initSeqState] at hk2
      omega
  have hdisj : ∀ m ∈ ms, ¬ (False : Prop) ∧ 1 ≤ Message.Id m := by
    intro m hm
    refine ⟨not_false, ?_⟩
    have hmem : Message.Id m ∈ List.range' 1 N :=
      hperm.mem_iff.mp (List.mem_map_of_mem Message.Id hm)
    rw [List.mem_range'_1] at hmem
    omega
  have hnd : (ms.map Message.Id).Nodup :=
    hperm.nodup_iff.mpr (List.nodup_range' 1 N)
  have hinv := runFeedFrom_inv ms inv0 hdisj hnd
  have hinv2 : SeqInv (fun k => 1 ≤ k ∧ k < 1 + N) (runFeed ms).1 ([] ++ (runFeed ms).2) := by
    refine SeqInv_congr (fun k => ?_) hinv
    constructor
    · rintro (hm | hf)
      · have hr := hperm.mem_iff.mp hm
        rw [List.mem_range'_1] at hr
        exact hr
      · exact hf.elim
    · intro h
      exact Or.inl (hperm.mem_iff.mpr (List.mem_range'_1.mpr h))
  have h1 := hinv2.one_le
  have h2 := hinv2.cur_not_fed
  have hcur : (runFeed ms).1.current = N + 1 := by
    rcases Nat.lt_or_ge (runFeed ms).1.current 2 with hc | hc
    · omega
    · have h4 := hinv2.below_fed ((runFeed ms).1.current - 1) (by omega) (by omega)
      omega
  have hout := hinv2.out_ids
  rw [List.nil_append] at hout
  rw [hout, hcur]
  simp

/-- Witness for C1: the permutation 2,1,3 of broadcasts is dispatched as
1,2,3. -/
theorem resequencer_dispatches_in_order_witness :
    (runFeed [Message.broadcast 2, Message.broadcast 1, Message.broadcast 3]).2.map Message.Id =
      List.range' 1 3 :=
  resequencer_dispatches_in_order _ 3 (by decide)

/-- C3 counterexample: the claim says every key in the pending buffer is
strictly greater than the cursor, but feeding 2, 1, 2 leaves the duplicate
record keyed at 2 in the buffer while the cursor is 3, because `readSource`
treats every id different from `current` — including stale ones — as
future and caches it. -/
theorem pending_invariant_counterexample :
    ¬ (∀ k ∈ mapKeys (runFeed [Message.broadcast 2, Message.broadcast 1,
        Message.broadcast 2]).1.cache,
      (runFeed [Message.broadcast 2, Message.broadcast 1, Message.broadcast 2]).1.current < k) := by
  decide

/-- C3 (amended): in every reachable resequencer state, every key of the
pending buffer is different from (rather than strictly greater than)
`nextExpected`, and a record whose sequence number equals `nextExpected` is
never placed in the buffer: it is dispatched and `nextExpected` advances past
it and past any now-contiguous buffered successors. -/
theorem pending_invariant (ms : List Message) (m : Message) :
    (∀ k ∈ mapKeys (runFeed ms).1.cache, k ≠ (runFeed ms).1.current) ∧
    (Message.Id m = (runFeed ms).1.current →
      m ∈ (seqStep (runFeed ms).1 m).2 ∧
      (runFeed ms).1.current < (seqStep (runFeed ms).1 m).1.current ∧
      Message.Id m ∉ mapKeys (seqStep (runFeed ms).1 m).1.cache ∧
      mapLookup (seqStep (runFeed ms).1 m).1.current (seqStep (runFeed ms).1 m).1.cache = none) := by
  have hnone : mapLookup (runFeed ms).1.current (runFeed ms).1.cache = none :=
    runFeedFrom_no_cur_key ms initSeqState (by simp [initSeqState, mapLookup])
  have hnotin : (runFeed ms).1.current ∉ mapKeys (runFeed ms).1.cache :=
    (mapLookup_eq_none_iff _ _).mp hnone
  refine ⟨fun k hk he => hnotin (he ▸ hk), ?_⟩
  intro hid
  obtain ⟨hv, hn⟩ := runFeed_vals_nodup ms
  have heq : seqStep (runFeed ms).1 m =
      ((drain ⟨(runFeed ms).1.current + 1, (runFeed ms).1.cache⟩).1,
        m :: (drain ⟨(runFeed ms).1.current + 1, (runFeed ms).1.cache⟩).2) := by
    simp [seqStep, hid]
  obtain ⟨h1, _, _, _, h5, h6, _⟩ :=
    drain_spec ⟨(runFeed ms).1.current + 1, (runFeed ms).1.cache⟩ hv hn
  dsimp only at h1 h5 h6
  rw [heq]
  dsimp only
  refine ⟨List.mem_cons_self m _, by omega, ?_, h6⟩
  intro hmem
  have := ((h5 (Message.Id m)).mp hmem).1
  exact hnotin (hid ▸ this)

/-- Witness for C3: with state reached by feeding seq 2, the ready record
seq 1 is dispatched and the cursor advances (draining the buffered seq 2). -/
theorem pending_invariant_witness :
    Message.broadcast 1 ∈
      (seqStep (runFeed [Message.broadcast 2]).1 (Message.broadcast 1)).2 ∧
    (runFeed [Message.broadcast 2]).1.current <
      (seqStep (runFeed [Message.broadcast 2]).1 (Message.broadcast 1)).1.current := by
  have h := (pending_invariant [Message.broadcast 2] (Message.broadcast 1)).2 (by decide)
  exact ⟨h.1, h.2.1⟩

/-- C4 counterexample: the claim says a stale record leaves the pending
buffer unchanged, but feeding the duplicate seq 2 into the state reached
after 2, 1 (cursor 3, empty buffer) inserts it into the buffer. -/
theorem stale_drop_counterexample :
    ¬ ((seqStep (runFeed [Message.broadcast 2, Message.broadcast 1]).1
          (Message.broadcast 2)).1.cache =
        (runFeed [Message.broadcast 2, Message.broadcast 1]).1.cache) := by
  decide

/-- C4 (amended): a stale record (id below the cursor) is never dispatched,
then or later, the cursor is unchanged and no crash occurs; however the
record is inserted into the pending buffer (keyed below the cursor) rather
than dropped without effect. -/
theorem stale_record_is_cached_never_dispatched (st : SeqState) (m : Message)
    (hvals : ∀ p ∈ st.cache, Message.Id p.2 = p.1)
    (hstale : Message.Id m < st.current) :
    (seqStep st m).1.current = st.current ∧
    (seqStep st m).2 = [] ∧
    (seqStep st m).1.cache = mapInsert (Message.Id m) m st.cache ∧
    (∀ future : List Message,
      Message.Id m ∉ (runFeedFrom (seqStep st m).1 future).2.map Message.Id) := by
  have hcase : ¬ (Message.Id m = st.current) := by omega
  have heq : seqStep st m = ({ st with cache := mapInsert (Message.Id m) m st.cache }, []) := by
    simp [seqStep, hcase]
  rw [heq]
  refine ⟨rfl, rfl, rfl, ?_⟩
  intro future hmem
  have hv2 : ∀ p ∈ mapInsert (Message.Id m) m st.cache, Message.Id p.2 = p.1 := by
    intro p hp
    rcases mem_mapInsert hp with he | ho
    · rw [he]
    · exact hvals p ho
  have h := (runFeedFrom_out_ge future
    { st with cache := mapInsert (Message.Id m) m st.cache } hv2).2.2 _ hmem
  dsimp only at h
  omega

/-- Witness for C4: the stale seq 2 fed at cursor 3 produces no dispatch and
is still never dispatched after seq 4 and seq 3 arrive later. -/
theorem stale_record_is_cached_never_dispatched_witness :
    (seqStep ⟨3, []⟩ (Message.broadcast 2)).2 = [] ∧
    Message.Id (Message.broadcast 2) ∉
      (runFeedFrom (seqStep ⟨3, []⟩ (Message.broadcast 2)).1
        [Message.broadcast 4, Message.broadcast 3]).2.map Message.Id := by
  refine ⟨?_, ?_⟩
  · exact (stale_record_is_cached_never_dispatched ⟨3, []⟩ (Message.broadcast 2)
      (by simp) (by decide)).2.1
  · exact (stale_record_is_cached_never_dispatched ⟨3, []⟩ (Message.broadcast 2)
      (by simp) (by decide)).2.2.2 [Message.broadcast 4, Message.broadcast 3]

/-- C2: if Follow(A,B) is dispatched and then StatusUpdate(B), a registered
client A receives the status update; if Unfollow(A,B) is dispatched in
between, client A does not receive it — StatusUpdate delivery consults the
follower graph as it stands at the update's dispatch moment.  The
well-formedness hypotheses say the follower graph is a Go map (distinct
keys, inner sets without duplicates). -/
theorem status_update_snapshot (st : ServerState) (A B : Int)
    (hwf : ∀ p ∈ st.followers, p.2.Nodup)
    (hkeys : (mapKeys st.followers).Nodup)
    (hreg : (GetClient st A).isSome) :
    ((A, Message.statusUpdate 5 B) ∈
      (dispatchMsg (dispatchMsg st (.follow 3 A B)).1 (.statusUpdate 5 B)).2) ∧
    ((A, Message.statusUpdate 5 B) ∉
      (dispatchMsg (dispatchMsg (dispatchMsg st (.follow 3 A B)).1 (.unfollow 4 A B)).1
        (.statusUpdate 5 B)).2) := by
  rw [dispatch_follow_state]
  have hcl1 : GetClient (AddFollower st B A) A = GetClient st A := by
    unfold GetClient
    rw [AddFollower_clients]
  constructor
  · rw [mem_dispatch_statusUpdate]
    exact ⟨mem_followersOf_AddFollower st B A, by rw [hcl1]; exact hreg⟩
  · have hst2 : (dispatchMsg (AddFollower st B A) (.unfollow 4 A B)).1 =
        RemoveFollower (AddFollower st B A) B A := rfl
    rw [hst2, mem_dispatch_statusUpdate]
    rintro ⟨hmem, _⟩
    exact not_mem_followersOf_RemoveFollower (AddFollower st B A) B A
      (AddFollower_sets_nodup B A hwf) (AddFollower_keys_nodup B A hkeys) hmem

/-- Witness for C2: client 1 registered; Follow(1,2) then StatusUpdate(2)
delivers to 1; with Unfollow(1,2) in between it does not. -/
theorem status_update_snapshot_witness :
    ((1, Message.statusUpdate 5 2) ∈
      (dispatchMsg (dispatchMsg ⟨[(1, 0)], []⟩ (.follow 3 1 2)).1 (.statusUpdate 5 2)).2) ∧
    ((1, Message.statusUpdate 5 2) ∉
      (dispatchMsg (dispatchMsg (dispatchMsg ⟨[(1, 0)], []⟩ (.follow 3 1 2)).1
        (.unfollow 4 1 2)).1 (.statusUpdate 5 2)).2) :=
  status_update_snapshot ⟨[(1, 0)], []⟩ 1 2 (by simp) (by simp [mapKeys]) (by decide)

/-- C7: `RegisterClient` for a user id that is already registered returns
false and leaves the registry untouched (the first sink remains the sole
registered sink for that id); for a fresh id the sink is stored and true is
returned. -/
theorem register_client_exclusive (st : ServerState) (cid : Int) (c1 c2 : Nat) :
    (mapLookup cid st.clients = some c1 →
      (RegisterClient st cid c2).1 = false ∧
      (RegisterClient st cid c2).2 = st ∧
      mapLookup cid (RegisterClient st cid c2).2.clients = some c1) ∧
    (mapLookup cid st.clients = none →
      (RegisterClient st cid c2).1 = true ∧
      mapLookup cid (RegisterClient st cid c2).2.clients = some c2) := by
  constructor
  · intro h
    have hs : (mapLookup cid st.clients).isSome = true := by rw [h]; rfl
    refine ⟨by simp [RegisterClient, hs], by simp [RegisterClient, hs], ?_⟩
    simp [RegisterClient, hs, h]
  · intro h
    have hs : (mapLookup cid st.clients).isSome = false := by rw [h]; rfl
    refine ⟨by simp [RegisterClient, hs], ?_⟩
    simp [RegisterClient, hs, mapLookup_mapInsert_self]

/-- Witness for C7: re-registering id 7 fails and keeps sink 1; registering
into an empty registry succeeds. -/
theorem register_client_exclusive_witness :
    (RegisterClient ⟨[(7, 1)], []⟩ 7 2).1 = false ∧
    mapLookup 7 (RegisterClient ⟨[(7, 1)], []⟩ 7 2).2.clients = some 1 ∧
    (RegisterClient ⟨[], []⟩ 7 2).1 = true := by
  refine ⟨?_, ?_, ?_⟩
  · exact ((register_client_exclusive ⟨[(7, 1)], []⟩ 7 1 2).1 (by decide)).1
  · exact ((register_client_exclusive ⟨[(7, 1)], []⟩ 7 1 2).1 (by decide)).2.2
  · exact ((register_client_exclusive ⟨[], []⟩ 7 1 2).2 (by decide)).1

/-- C8: `AddFollower` is idempotent — applying it twice yields the same
state as applying it once — and `RemoveFollower` on an absent edge leaves
the graph unchanged; the well-formedness hypothesis is the FollowerGraph
invariant that empty follower sets are pruned. -/
theorem follower_ops_idempotent (st : ServerState) (A B : Int)
    (hwf : ∀ p ∈ st.followers, p.2 ≠ ([] : List Int)) :
    AddFollower (AddFollower st B A) B A = AddFollower st B A ∧
    (A ∉ followersOf st B → RemoveFollower st B A = st) := by
  constructor
  · rw [AddFollower_eq st B A, AddFollower_eq]
    have hf : followersOf
        { st with followers := mapInsert B (setInsert A (followersOf st B)) st.followers } B =
        setInsert A (followersOf st B) := by
      unfold followersOf GetFollowers
      dsimp only
      rw [mapLookup_mapInsert_self]
    rw [hf, setInsert_idem, mapInsert_mapInsert]
  · intro hA
    unfold RemoveFollower
    cases hl : mapLookup B st.followers with
    | none => rfl
    | some s =>
      have hAs : A ∉ s := by
        unfold followersOf GetFollowers at hA
        rw [hl] at hA
        exact hA
      have hers : setErase A s = s := setErase_of_not_mem hAs
      have hne : s ≠ [] := hwf (B, s) (mapLookup_some_mem hl)
      dsimp only
      rw [hers]
      have hlen : ¬ (s.length = 0) := by
        cases s with
        | nil => exact absurd rfl hne
        | cons a tl => simp
      rw [if_neg hlen, mapInsert_lookup_self hl]

/-- Witness for C8: double Follow(1,2) equals single, and Unfollow of the
absent edge (5,2) is a no-op. -/
theorem follower_ops_idempotent_witness :
    AddFollower (AddFollower ⟨[], [(2, [1])]⟩ 2 1) 2 1 = AddFollower ⟨[], [(2, [1])]⟩ 2 1 ∧
    RemoveFollower ⟨[], [(2, [1])]⟩ 2 5 = ⟨[], [(2, [1])]⟩ := by
  refine ⟨(follower_ops_idempotent ⟨[], [(2, [1])]⟩ 1 2 (by decide)).1,
    (follower_ops_idempotent ⟨[], [(2, [1])]⟩ 5 2 (by decide)).2 (by decide)⟩

/-- C9: `GetFollowers` for a followee with no entry in the graph yields the
empty follower set — not an error — and StatusUpdate dispatch for such a
user produces zero deliveries. -/
theorem unknown_followee_empty (st : ServerState) (F : Int) (s : Nat)
    (h : GetFollowers st F = none) :
    followersOf st F = [] ∧ (dispatchMsg st (.statusUpdate s F)).2 = [] := by
  constructor
  · unfold followersOf
    rw [h]
  · unfold dispatchMsg
    dsimp only
    rw [h]

/-- Witness for C9: user 5 has no followers entry; its status update
delivers nothing. -/
theorem unknown_followee_empty_witness :
    followersOf ⟨[(1, 0)], []⟩ 5 = [] ∧
    (dispatchMsg ⟨[(1, 0)], []⟩ (.statusUpdate 9 5)).2 = [] :=
  unknown_followee_empty ⟨[(1, 0)], []⟩ 5 9 (by decide)

/-- C10: `AddFollower` and `RemoveFollower` on followee F change at most the
follower set of F — every other followee's observable follower set is
unchanged. -/
theorem follower_ops_frame (st : ServerState) (F U F2 : Int) (hne : F2 ≠ F) :
    followersOf (AddFollower st F U) F2 = followersOf st F2 ∧
    followersOf (RemoveFollower st F U) F2 = followersOf st F2 := by
  constructor
  · rw [AddFollower_eq]
    unfold followersOf GetFollowers
    dsimp only
    rw [mapLookup_mapInsert_ne hne]
  · unfold RemoveFollower
    cases hl : mapLookup F st.followers with
    | none => rfl
    | some s =>
      dsimp only
      by_cases hlen : (setErase U s).length = 0
      · rw [if_pos hlen]
        unfold followersOf GetFollowers
        dsimp only
        rw [mapLookup_mapErase_ne hne]
      · rw [if_neg hlen]
        unfold followersOf GetFollowers
        dsimp only
        rw [mapLookup_mapInsert_ne hne]

/-- Witness for C10: adding and removing follower 1 of followee 2 does not
change the follower set of followee 3. -/
theorem follower_ops_frame_witness :
    followersOf (AddFollower ⟨[], [(3, [9])]⟩ 2 1) 3 = followersOf ⟨[], [(3, [9])]⟩ 3 ∧
    followersOf (RemoveFollower ⟨[], [(3, [9])]⟩ 2 1) 3 = followersOf ⟨[], [(3, [9])]⟩ 3 :=
  follower_ops_frame ⟨[], [(3, [9])]⟩ 2 1 3 (by decide)

/-- C6: encode is total on well-formed messages (by construction,
`Message.encode` is a total function, mirroring `fmt.Sprintf` which cannot
fail) and is the exact inverse of decode: for every well-formed message of
any of the five kinds, decoding the encoded line yields the message back. -/
theorem encode_parse_roundtrip (m : Message) (h : m.WellFormed) :
    ParseMessage (Message.encode m) = some m := by
  cases m with
  | follow s f t =>
    obtain ⟨hs, ⟨hf1, hf2⟩, ht1, ht2⟩ := h
    have he : Message.encode (.follow s f t) =
        (natToDigits s ++ [124, 70, 124] ++ intToDigits f ++ [124] ++ intToDigits t)
          ++ [13, 10] := by
      simp [Message.encode]
    rw [he, ParseMessage_two_arg s f t 70 hs hf1 hf2 ht1 ht2 (by omega) (by omega)]
    rfl
  | unfollow s f t =>
    obtain ⟨hs, ⟨hf1, hf2⟩, ht1, ht2⟩ := h
    have he : Message.encode (.unfollow s f t) =
        (natToDigits s ++ [124, 85, 124] ++ intToDigits f ++ [124] ++ intToDigits t)
          ++ [13, 10] := by
      simp [Message.encode]
    rw [he, ParseMessage_two_arg s f t 85 hs hf1 hf2 ht1 ht2 (by omega) (by omega)]
    rfl
  | broadcast s =>
    have he : Message.encode (.broadcast s) =
        (natToDigits s ++ [124, 66]) ++ [13, 10] := by
      simp [Message.encode]
    rw [he, ParseMessage_zero_arg s 66 h (by omega) (by omega)]
    rfl
  | statusUpdate s f =>
    obtain ⟨hs, hf1, hf2⟩ := h
    have he : Message.encode (.statusUpdate s f) =
        (natToDigits s ++ [124, 83, 124] ++ intToDigits f) ++ [13, 10] := by
      simp [Message.encode]
    rw [he, ParseMessage_one_arg s f 83 hs hf1 hf2 (by omega) (by omega)]
    rfl
  | privateMessage s f t =>
    obtain ⟨hs, ⟨hf1, hf2⟩, ht1, ht2⟩ := h
    have he : Message.encode (.privateMessage s f t) =
        (natToDigits s ++ [124, 80, 124] ++ intToDigits f ++ [124] ++ intToDigits t)
          ++ [13, 10] := by
      simp [Message.encode]
    rw [he, ParseMessage_two_arg s f t 80 hs hf1 hf2 ht1 ht2 (by omega) (by omega)]
    rfl

/-- Witness for C6: the follow message with seq 5 from -3 to 34 encodes and
parses back to itself. -/
theorem encode_parse_roundtrip_witness :
    ParseMessage (Message.encode (.follow 5 (-3) 34)) = some (.follow 5 (-3) 34) :=
  encode_parse_roundtrip (.follow 5 (-3) 34)
    ⟨by norm_num, ⟨by norm_num, by norm_num⟩, by norm_num, by norm_num⟩

/-- C5: `ParseMessage` fails exactly when the spec's malformed-message
conditions hold: fewer than 2 fields, invalid seq field, an invalid integer
argument, an unrecognised kind tag, or an argument count that does not match
the kind's fixed arity.  Since decode returns an `Option`, no partly
populated message exists on the error path by construction. -/
theorem decode_error_iff (s : List Nat) :
    ParseMessage s = none ↔ MalformedCond s := by
  unfold ParseMessage MalformedCond
  dsimp only
  rcases hp : splitB 124 (trimB s) with _ | ⟨p0, _ | ⟨p1, rest⟩⟩
  · simp
  · simp
  · have hlen : ¬ ((p0 :: p1 :: rest).length < 2) := by simp
    rw [if_neg hlen]
    dsimp only
    cases hseq : parseUint64 p0 with
    | none =>
      simp only [List.getD_cons_zero]
      exact iff_of_true (by trivial) (Or.inr (Or.inl hseq))
    | some seq =>
      cases hargs : parseArgsList rest with
      | none =>
        obtain ⟨x, hx, hfail⟩ := (parseArgsList_eq_none_iff rest).mp hargs
        refine iff_of_true (by trivial) (Or.inr (Or.inr (Or.inl ⟨x, ?_, hfail⟩)))
        simpa using hx
      | some args =>
        rw [NewMessage_eq_none_iff]
        have hlen2 : args.length = rest.length := parseArgsList_length hargs
        have hnone : ¬ ∃ a ∈ rest, parseInt64 a = none := by
          intro hex
          rw [(parseArgsList_eq_none_iff rest).mpr hex] at hargs
          cases hargs
        constructor
        · rintro (h | ⟨n, hn, hne⟩)
          · refine Or.inr (Or.inr (Or.inr (Or.inl ?_)))
            simpa using h
          · refine Or.inr (Or.inr (Or.inr (Or.inr ⟨n, ?_, ?_⟩)))
            · simpa using hn
            · simp only [List.length_cons]
              omega
        · rintro (h | h | h | h | ⟨n, hn, hne⟩)
          · exact absurd h hlen
          · rw [List.getD_cons_zero] at h
            rw [h] at hseq
            cases hseq
          · refine absurd ?_ hnone
            simpa using h
          · exact Or.inl (by simpa using h)
          · refine Or.inr ⟨n, by simpa using hn, ?_⟩
            simp only [List.length_cons] at hne
            omega

end FollowerMaze
